import Mathlib

/-!
Verification development for the PDF-to-EPUB text-structuring pipeline
(`pdf_to_epub.py`, class `PDFToEPUBConverter`).

The Python code is shallowly embedded: lines and texts are `List Char`,
Python `int` is `Int`, and each method of the converter that the claims
touch is translated into an executable Lean function.  Regex patterns,
which in the source are compiled `re.Pattern` objects applied with
`.match`, are hand-compiled into recognizers whose structure mirrors the
pattern string alternative by alternative; comments at each definition
record the regex text being implemented and the determinization
arguments (where a maximal-munch scan replaces backtracking, a comment
justifies the equivalence).
-/

set_option maxRecDepth 40000

/-- Shorthand: the character list of a string literal. -/
def lc (s : String) : List Char := s.data

/-- ASCII lower-casing of one character (Python `str.lower` /
`re.IGNORECASE` restricted to ASCII; non-ASCII letters are untouched by
this model). -/
def asciiLower (c : Char) : Char :=
  if 65 ≤ c.toNat ∧ c.toNat ≤ 90 then Char.ofNat (c.toNat + 32) else c

/-- ASCII upper-casing of one character (Python `str.upper` restricted to
ASCII). -/
def asciiUpper (c : Char) : Char :=
  if 97 ≤ c.toNat ∧ c.toNat ≤ 122 then Char.ofNat (c.toNat - 32) else c

/-- Python whitespace, as used by `str.strip()`, `str.split()` and the
regex class `\s`: ASCII space, tab, newline, carriage return, vertical
tab, form feed, the file/group/record/unit separators, NEL and NBSP.
(The rarer Unicode space code points are not modelled; no input in this
development contains them.) -/
def pyIsSpace (c : Char) : Bool :=
  c = ' ' || c = '\t' || c = '\n' || c = '\r' || c = '\x0b' || c = '\x0c' ||
  c = '\x1c' || c = '\x1d' || c = '\x1e' || c = '\x1f' || c = '\x85' || c = '\xa0'

/-- Python `str.isupper()` on a single character, ASCII range. -/
def pyIsUpper (c : Char) : Bool := 65 ≤ c.toNat && c.toNat ≤ 90

/-- Python `str.strip()`: remove leading and trailing whitespace. -/
def pyStrip (s : List Char) : List Char :=
  ((s.dropWhile pyIsSpace).reverse.dropWhile pyIsSpace).reverse

/-- Line-break characters recognized by Python `str.splitlines()`. -/
def isLineBreak (c : Char) : Bool :=
  c = '\n' || c = '\r' || c = '\x0b' || c = '\x0c' ||
  c = '\x1c' || c = '\x1d' || c = '\x1e' || c = '\x85' ||
  c = '\u2028' || c = '\u2029'

/-- Worker for `splitlines`: `acc` holds the current line reversed, and
`afterCR` records that the previous character was a `'\r'` whose break
was already emitted, so that an immediately following `'\n'` is consumed
silently (`"\r\n"` counts as a single break).  A trailing break does not
produce a final empty line — exactly Python `str.splitlines()`. -/
def splitlinesAux : List Char → Bool → List Char → List (List Char)
  | [], _, acc => if acc.isEmpty then [] else [acc.reverse]
  | c :: rest, afterCR, acc =>
    if afterCR && c = '\n' then splitlinesAux rest false acc
    else if c = '\r' then acc.reverse :: splitlinesAux rest true []
    else if isLineBreak c then acc.reverse :: splitlinesAux rest false []
    else splitlinesAux rest false (c :: acc)

/-- Python `str.splitlines()`. -/
def splitlines (s : List Char) : List (List Char) := splitlinesAux s false []

/-- Python `"\n".join(lines)`. -/
def joinNL : List (List Char) → List Char
  | [] => []
  | [l] => l
  | l :: rest => l ++ '\n' :: joinNL rest

/-- Python `" ".join(lines)`. -/
def joinSpace : List (List Char) → List Char
  | [] => []
  | [l] => l
  | l :: rest => l ++ ' ' :: joinSpace rest

/-- Worker for `pyWords`. -/
def pyWordsAux : List Char → List Char → List (List Char)
  | [], acc => if acc.isEmpty then [] else [acc.reverse]
  | c :: rest, acc =>
    if pyIsSpace c then
      if acc.isEmpty then pyWordsAux rest [] else acc.reverse :: pyWordsAux rest []
    else pyWordsAux rest (c :: acc)

/-- Python `str.split()` with no argument: split on whitespace runs,
discarding empty pieces. -/
def pyWords (s : List Char) : List (List Char) := pyWordsAux s []

/-- Single left-to-right pass for `strip_tags`.  Outside a tag
(`inTag = false`) characters are copied, and a `'<'` opens a tag.
Inside a tag characters are buffered in `seen` (reversed); a `'>'`
discards the buffered tag, while end of input without a `'>'` restores
the `'<'` and the buffer verbatim — in that case no later `'>'` exists
anywhere, so none of the restored characters can start a match. -/
def stripTagsGo : List Char → Bool → List Char → List Char
  | [], inTag, seen => if inTag then '<' :: seen.reverse else []
  | c :: rest, inTag, seen =>
    if inTag then
      if c = '>' then stripTagsGo rest false []
      else stripTagsGo rest true (c :: seen)
    else
      if c = '<' then stripTagsGo rest true []
      else c :: stripTagsGo rest false seen

/-- `_strip_tags`: `re.sub(r"<[^>]*>", "", text)`.  A match of
`<[^>]*>` is a `'<'`, everything up to the first following `'>'`, and
that `'>'`; a `'<'` with no later `'>'` matches nothing and is kept.
`re.sub`'s leftmost-match scan is exactly the single pass of
`stripTagsGo`. -/
def strip_tags (s : List Char) : List Char := stripTagsGo s false []

/-- The map `roman_map` of `_roman_to_int`; `0` for characters outside the
map (`roman_map.get(char, 0)`). -/
def romanMap (c : Char) : Int :=
  if c = 'I' then 1 else if c = 'V' then 5 else if c = 'X' then 10
  else if c = 'L' then 50 else if c = 'C' then 100 else if c = 'D' then 500
  else if c = 'M' then 1000 else 0

/-- The loop of `_roman_to_int`, already running over the reversed
numeral: subtract a value smaller than its (more significant) successor,
add otherwise. -/
def romanToIntAux : List Char → Int → Int → Int
  | [], value, _ => value
  | c :: rest, value, prev =>
    let cur := romanMap c
    romanToIntAux rest (if cur < prev then value - cur else value + cur) cur

/-- `_roman_to_int`: right-to-left subtractive decoding, no canonical-form
validation. -/
def roman_to_int (roman : List Char) : Int := romanToIntAux roman.reverse 0 0

/-- Membership in the character class `[IVXLCDM]` (upper case). -/
def isRomanUpperCh (c : Char) : Bool :=
  c = 'I' || c = 'V' || c = 'X' || c = 'L' || c = 'C' || c = 'D' || c = 'M'

/-- `_convert_line_if_roman`: strip and upper-case the line; if the whole
result matches `^[IVXLCDM]+$` return its decoded value, otherwise return
the original line.  (The source compiles the pattern with `IGNORECASE`,
which is moot after `.upper()`.) -/
def convert_line_if_roman (line : List Char) : Int ⊕ List Char :=
  let stripped := (pyStrip line).map asciiUpper
  if !stripped.isEmpty && stripped.all isRomanUpperCh then
    Sum.inl (roman_to_int stripped)
  else
    Sum.inr line

/-- Decimal digits of a natural number, most significant first,
accumulated in `acc`; `fuel` bounds the recursion (any `fuel > log10 n`
suffices, and `natDigits` passes `n + 1`). -/
def natDigitsGo : Nat → Nat → List Char → List Char
  | 0, _, acc => acc
  | fuel + 1, n, acc =>
    let d := Char.ofNat (48 + n % 10)
    if n < 10 then d :: acc else natDigitsGo fuel (n / 10) (d :: acc)

/-- Decimal digit string of a natural number. -/
def natDigits (n : Nat) : List Char := natDigitsGo (n + 1) n []

/-- Python `str(n)` for an `int`. -/
def intToStr (n : Int) : List Char :=
  if n < 0 then '-' :: natDigits n.natAbs else natDigits n.toNat

/-- Python `str.isnumeric()` for the strings arising here (decimal
renderings of ints and tag-stripped line text): nonempty and all ASCII
digits.  (Exotic Unicode numerics are not modelled.) -/
def pyIsNumeric (s : List Char) : Bool := !s.isEmpty && s.all Char.isDigit

/-- Python `int(s)` on a string of ASCII digits. -/
def strToInt (s : List Char) : Int :=
  Int.ofNat (s.foldl (fun a c => a * 10 + (c.toNat - 48)) 0)

/-! ### `_generate_textual_numbers` -/

/-- `units` of `_generate_textual_numbers`. -/
def unitsTN : List (List Char) :=
  [lc "ONE", lc "TWO", lc "THREE", lc "FOUR", lc "FIVE", lc "SIX", lc "SEVEN",
   lc "EIGHT", lc "NINE"]

/-- `teens` of `_generate_textual_numbers`. -/
def teensTN : List (List Char) :=
  [lc "TEN", lc "ELEVEN", lc "TWELVE", lc "THIRTEEN", lc "FOURTEEN",
   lc "FIFTEEN", lc "SIXTEEN", lc "SEVENTEEN", lc "EIGHTEEN", lc "NINETEEN"]

/-- `tens` of `_generate_textual_numbers`. -/
def tensTN : List (List Char) :=
  [lc "TWENTY", lc "THIRTY", lc "FORTY", lc "FIFTY", lc "SIXTY", lc "SEVENTY",
   lc "EIGHTY", lc "NINETY"]

/-- The numbers below 100, in the order the source's loop appends them:
units, teens, then for each ten the bare ten followed by the hyphenated
and the spaced compound for each unit. -/
def below100TN : List (List Char) :=
  unitsTN ++ teensTN ++
    tensTN.flatMap (fun t => t :: unitsTN.flatMap (fun u => [t ++ '-' :: u, t ++ ' ' :: u]))

/-- The `hundreds` list: for each unit, `U HUNDRED` followed by
`U HUNDRED AND N` for every number generated so far (the below-100 list). -/
def hundredsTN : List (List Char) :=
  unitsTN.flatMap (fun u =>
    (u ++ lc " HUNDRED") :: below100TN.map (fun n => u ++ lc " HUNDRED AND " ++ n))

/-- `_generate_textual_numbers`: spelled-out cardinals, upper case,
ending with `ONE THOUSAND`. -/
def generate_textual_numbers : List (List Char) :=
  below100TN ++ hundredsTN ++ [lc "ONE THOUSAND"]

/-- The textual-number alternatives lower-cased once, as the
`IGNORECASE` chapter pattern sees them when this model folds case by
lower-casing the subject line. -/
def textualNumbersLower : List (List Char) :=
  generate_textual_numbers.map (List.map asciiLower)

/-! ### `_build_chapter_pattern`

The source compiles (with `re.IGNORECASE`)

    ^(?:Chapter\s+(?:\d{1,3}(?=\b)|[IVXLCDM]+|T)|
       CHAPTER\s+(?:\d{1,3}(?=\b)|[IVXLCDM]+|T)|
       CHAPTER\s+(?:\d{1,3}(?=\b)|[IVXLCDM]+|T)(?:[:\-\s]+.+)?|
       [IVXLCDM]+|\d{1,3}(?=\b))$

where `T` abbreviates the escaped textual-number alternation.  Because
of `IGNORECASE` the first three top-level alternatives recognize exactly
the same strings except that only the third carries the optional
`(?:[:\-\s]+.+)?` suffix; their union is therefore one case-folded
`chapter`-word alternative with that optional suffix, plus the two bare
numeral alternatives.  This model folds case by lower-casing the subject
once and matching lower-case literals. -/

/-- The class `[IVXLCDM]`, after case folding. -/
def isRomanLowerCh (c : Char) : Bool :=
  c = 'i' || c = 'v' || c = 'x' || c = 'l' || c = 'c' || c = 'd' || c = 'm'

/-- The class `[:\-\s]`. -/
def isSepCh (c : Char) : Bool := c = ':' || c = '-' || pyIsSpace c

/-- A word character for `\b` (ASCII `[A-Za-z0-9_]`; Unicode word
characters do not occur in this development's inputs). -/
def isWordCh (c : Char) : Bool := c.isAlphanum || c = '_'

/-- Python `$`: matches at the end of the subject or just before one
final `'\n'`. -/
def dollarEnd (s : List Char) : Bool := s.isEmpty || s = ['\n']

/-- `.+$`: one or more non-`'\n'` characters, then `$` (so an optional
single trailing `'\n'`). -/
def dotPlusEnd (r : List Char) : Bool :=
  if r.getLast? = some '\n' then
    !r.dropLast.isEmpty && r.dropLast.all (fun c => c ≠ '\n')
  else
    !r.isEmpty && r.all (fun c => c ≠ '\n')

/-- `[:\-\s]+.+$`: with backtracking, some nonempty separator prefix
followed by a `.+$` tail; the recursion tries every split, as the regex
engine does. -/
def sepTextMatch : List Char → Bool
  | [] => false
  | c :: rest => isSepCh c && (dotPlusEnd rest || sepTextMatch rest)

/-- What may follow a numeral inside the `chapter`-word alternative:
either `$` directly, or the optional group `(?:[:\-\s]+.+)?` and then
`$`. -/
def restOk (r : List Char) : Bool := dollarEnd r || sepTextMatch r

/-- The lookahead `(?=\b)` placed after a digit run: the next position is
a word boundary, i.e. the subject is exhausted or continues with a
non-word character. -/
def wordBoundary (r : List Char) : Bool :=
  match r.head? with
  | none => true
  | some c => !isWordCh c

/-- `\d{1,3}(?=\b)` followed by `restOk`.  Backtracking over the run
length is determinized: a shorter-than-maximal digit prefix leaves a
digit (a word character) as the next character, failing the boundary
lookahead, so only the maximal digit run can succeed, and it must have
length at most 3. -/
def digitsNumeral (r : List Char) : Bool :=
  let ds := r.takeWhile Char.isDigit
  let rest := r.dropWhile Char.isDigit
  !ds.isEmpty && ds.length ≤ 3 && wordBoundary rest && restOk rest

/-- `[IVXLCDM]+` followed by `restOk`.  Maximal munch is equivalent to
backtracking here: a shorter roman prefix leaves a roman letter as the
next character, which is neither a separator nor an admissible `$`
position, so `restOk` fails on it. -/
def romanNumeral (r : List Char) : Bool :=
  let rm := r.takeWhile isRomanLowerCh
  let rest := r.dropWhile isRomanLowerCh
  !rm.isEmpty && restOk rest

/-- The textual-number alternation followed by `restOk`; the regex engine
tries each alternative, i.e. succeeds when any listed cardinal is a
prefix whose remainder matches. -/
def textualNumeral (r : List Char) : Bool :=
  textualNumbersLower.any (fun n => n.isPrefixOf r && restOk (r.drop n.length))

/-- The case-folded union of the three `Chapter`-word alternatives:
`chapter`, whitespace, a numeral, then the (collapsed-optional)
separator-and-title suffix or the line end. -/
def chapterWordAlt (t : List Char) : Bool :=
  if (lc "chapter").isPrefixOf t then
    let r := t.drop 7
    let ws := r.takeWhile pyIsSpace
    let r2 := r.dropWhile pyIsSpace
    !ws.isEmpty && (digitsNumeral r2 || romanNumeral r2 || textualNumeral r2)
  else false

/-- The bare `[IVXLCDM]+$` alternative (maximal munch as in
`romanNumeral`: only the full string can satisfy the following `$`). -/
def bareRomanAlt (t : List Char) : Bool :=
  !(t.takeWhile isRomanLowerCh).isEmpty && dollarEnd (t.dropWhile isRomanLowerCh)

/-- The bare `\d{1,3}(?=\b)$` alternative. -/
def bareDigitsAlt (t : List Char) : Bool :=
  let ds := t.takeWhile Char.isDigit
  let rest := t.dropWhile Char.isDigit
  !ds.isEmpty && ds.length ≤ 3 && wordBoundary rest && dollarEnd rest

/-- `self.chapter_pattern.match(line)` viewed as a Boolean: the compiled
chapter pattern of `_build_chapter_pattern` applied to a whole line. -/
def chapterMatch (s : List Char) : Bool :=
  let t := s.map asciiLower
  chapterWordAlt t || bareRomanAlt t || bareDigitsAlt t

/-- The keywords of `_build_prologue_epilogue_pattern`. -/
def prologueKeywords : List (List Char) :=
  [lc "PROLOGUE", lc "EPILOGUE", lc "PREFACE", lc "FOREWORD",
   lc "INTRODUCTION", lc "AFTERWORD", lc "POSTSCRIPT"]

/-- `self.prologue_epilogue_pattern.match(line)`:
`^(?:PROLOGUE|EPILOGUE|PREFACE|FOREWORD|INTRODUCTION|AFTERWORD|POSTSCRIPT)$`
with `IGNORECASE`; `$` admits one trailing `'\n'`. -/
def prologueMatch (s : List Char) : Bool :=
  let t := s.map asciiLower
  prologueKeywords.any (fun w =>
    t = w.map asciiLower || t = w.map asciiLower ++ ['\n'])

/-! ### `_merge_split_lines` -/

/-- The tuple of terminators in
`merged_text.endswith((".", ":", "!", "?", "\n", '"', "'", ")", "]", "}"))`:
all ten are single characters, so the check is on the last character. -/
def endsWithSet (s : List Char) : Bool :=
  match s.getLast? with
  | some c => c = '.' || c = ':' || c = '!' || c = '?' || c = '\n' ||
              c = '"' || c = '\'' || c = ')' || c = ']' || c = '}'
  | none => false

/-- Is a (stripped, tag-stripped) line classified as a heading by
`_merge_split_lines`? -/
def isChapterLike (woTags : List Char) : Bool :=
  chapterMatch woTags || prologueMatch woTags

/-- The loop of `_merge_split_lines`: `merged` is the accumulated
`merged_text`, `prevCh` the carried `prev_is_chapter` flag. -/
def mergeGo : List (List Char) → List Char → Bool → List Char
  | [], merged, _ => merged
  | line :: rest, merged, prevCh =>
    let stripped := pyStrip line
    if stripped.isEmpty then mergeGo rest merged prevCh
    else
      let woTags := strip_tags stripped
      if isChapterLike woTags then
        mergeGo rest
          ((if merged.isEmpty then merged else merged ++ ['\n']) ++
            '\n' :: (stripped ++ ['\n'])) true
      else if !merged.isEmpty && !endsWithSet merged then
        mergeGo rest (merged ++ ' ' :: stripped) false
      else
        let m2 := (if merged.isEmpty then merged else merged ++ ['\n']) ++ stripped
        mergeGo rest
          (if (pyWords woTags).length = 1 && prevCh then m2 ++ ['\n'] else m2) false

/-- `_merge_split_lines`. -/
def merge_split_lines (lines : List (List Char)) : List Char :=
  mergeGo lines [] false

/-! ### `_detect_chapters` -/

/-- The loop state of `_detect_chapters`. -/
structure DetectState where
  prevIsChapter : Bool
  chapterNumber : Int
  consecutiveChapterIndex : Nat
  startIndices : List Nat
  chapterNames : List (List Char)
deriving Repr, DecidableEq

/-- Python `str(...)` applied to the result of `_convert_line_if_roman`. -/
def romanResultStr : Int ⊕ List Char → List Char
  | Sum.inl n => intToStr n
  | Sum.inr t => t

/-- The subtitle lookahead of `_detect_chapters`: scan `lines[i+1]` and
`lines[i+2]`; at the first non-blank one, append it (stripped) to the
chapter name when its tag-stripped text has at most two words, and stop
either way. -/
def subtitleName (lines : List (List Char)) (i : Nat) (cleanLine : List Char) : List Char :=
  match ((lines.drop (i+1)).take 2).find? (fun l => !(pyStrip l).isEmpty) with
  | some l =>
    let nextLine := pyStrip l
    if (pyWords (strip_tags nextLine)).length ≤ 2 then
      cleanLine ++ ' ' :: nextLine
    else cleanLine
  | none => cleanLine

/-- One iteration of the detection loop of `_detect_chapters`, for the
line at index `i`. -/
def detectStep (lines : List (List Char)) (st : DetectState) (i : Nat)
    (line : List Char) : DetectState :=
  let cleanLine := strip_tags (pyStrip line)
  if cleanLine.isEmpty then st
  else if chapterMatch cleanLine then
    let cleanLineNumeric := romanResultStr (convert_line_if_roman cleanLine)
    let cci := if st.prevIsChapter then st.consecutiveChapterIndex + 1 else 0
    if (pyIsNumeric cleanLineNumeric && strToInt cleanLineNumeric ≠ st.chapterNumber)
        || st.prevIsChapter then
      -- spurious: possibly retract the previously accepted start
      if cci = 1 && !st.startIndices.isEmpty then
        { st with
          prevIsChapter := false, consecutiveChapterIndex := cci,
          startIndices := st.startIndices.dropLast,
          chapterNames := st.chapterNames.dropLast,
          chapterNumber := st.chapterNumber - 1 }
      else
        { st with prevIsChapter := false, consecutiveChapterIndex := cci }
    else
      { st with
        chapterNumber := st.chapterNumber + 1, prevIsChapter := true,
        consecutiveChapterIndex := cci,
        startIndices := st.startIndices ++ [i],
        chapterNames := st.chapterNames ++ [subtitleName lines i cleanLine] }
  else if prologueMatch cleanLine then
    -- skip an EPILOGUE appearing before any other detected start
    if !(cleanLine.map asciiUpper = lc "EPILOGUE" && st.startIndices.isEmpty) then
      { st with
        prevIsChapter := true,
        startIndices := st.startIndices ++ [i],
        chapterNames := st.chapterNames ++ [line] }
    else st
  else
    { st with prevIsChapter := false }

/-- `for i, line in enumerate(lines)` of `_detect_chapters`; the first
argument is the full line list, kept for the subtitle lookahead. -/
def detectLoop (lines : List (List Char)) : List (List Char) → Nat → DetectState → DetectState
  | [], _, st => st
  | l :: rest, i, st => detectLoop lines rest (i+1) (detectStep lines st i l)

/-- The state after the whole detection scan of `_detect_chapters`
(before the final boundary `len(lines)` is appended). -/
def detectScan (lines : List (List Char)) : DetectState :=
  detectLoop lines lines 0 ⟨false, 1, 0, [], []⟩

/-- Python `lines[a:b]` for `0 ≤ a, b`. -/
def pySlice (l : List (List Char)) (a b : Nat) : List (List Char) :=
  (l.take b).drop a

/-- The line spans `lines[start_indices[i] : start_indices[i+1]]` taken
over consecutive pairs of boundary indices. -/
def chapterSpans (lines : List (List Char)) : List Nat → List (List (List Char))
  | a :: b :: rest => pySlice lines a b :: chapterSpans lines (b :: rest)
  | _ => []

/-- `_detect_chapters`: scan for boundaries, append the final boundary
`len(lines)`, then pair consecutive boundaries into
`("\n".join(span).strip(), name)` chapters; the front matter is
`lines[:start_indices[0]]`.  The source's `if start_indices:` test and
its `[(pdf_text, "Chapter 1")], []` fallback are kept even though the
appended final boundary makes the list nonempty on every input. -/
def detect_chapters (pdfText : List Char) :
    List (List Char × List Char) × List (List Char) :=
  let lines := splitlines pdfText
  let st := detectScan lines
  let sis := st.startIndices ++ [lines.length]
  if sis.isEmpty then
    ([(pdfText, lc "Chapter 1")], [])
  else
    ((chapterSpans lines sis).zipWith
        (fun span name => (pyStrip (joinNL span), name)) st.chapterNames,
      lines.take (sis.headD 0))

/-! ### `_detect_paragraphs` -/

/-- `stripped_line[0].isupper()`. -/
def headIsUpper (s : List Char) : Bool :=
  match s.head? with
  | some c => pyIsUpper c
  | none => false

/-- `current_paragraph and current_paragraph[-1].endswith('.')`. -/
def lastLineEndsPeriod (current : List (List Char)) : Bool :=
  match current.getLast? with
  | some l => l.getLast? = some '.'
  | none => false

/-- The loop of `_detect_paragraphs`: `i` is the enumeration index,
`paragraphs` the finished paragraphs, `current` the lines of the open
paragraph. -/
def paraLoop : List (List Char) → Nat → List (List Char) → List (List Char) →
    List (List Char) × List (List Char)
  | [], _, paragraphs, current => (paragraphs, current)
  | line :: rest, i, paragraphs, current =>
    let stripped := pyStrip line
    let startNew := !stripped.isEmpty &&
      (i = 0 || (headIsUpper stripped && lastLineEndsPeriod current))
    let flushed :=
      if startNew && !current.isEmpty then (paragraphs ++ [joinSpace current], ([] : List (List Char)))
      else (paragraphs, current)
    let appended :=
      if !stripped.isEmpty then (flushed.1, flushed.2 ++ [stripped]) else flushed
    paraLoop rest (i+1) appended.1 appended.2

/-- `_detect_paragraphs`. -/
def detect_paragraphs (lines : List (List Char)) : List (List Char) :=
  let r := paraLoop lines 0 [] []
  if !r.2.isEmpty then r.1 ++ [joinSpace r.2] else r.1

/-! ### `_add_chapters_to_epub` (content of one chapter) -/

/-- Python `haystack.find(needle)`: index of the first occurrence, `-1`
when absent. -/
def pyFind (haystack needle : List Char) : Int :=
  if needle.isPrefixOf haystack then 0
  else
    match haystack with
    | [] => -1
    | _ :: t => let r := pyFind t needle; if r < 0 then -1 else r + 1

/-- Python `needle in haystack` on strings: substring containment. -/
def pyInStr (needle haystack : List Char) : Bool :=
  (List.range (haystack.length + 1)).any (fun k => needle.isPrefixOf (haystack.drop k))

/-- The paragraphs that `_add_chapters_to_epub` actually renders for one
chapter: those passing `para not in chapter_name and para.strip()`. -/
def renderedParas (chapterText chapterName : List Char) : List (List Char) :=
  (detect_paragraphs (splitlines chapterText)).filter
    (fun para => !pyInStr para chapterName && !(pyStrip para).isEmpty)

/-- The `html_content` that `_add_chapters_to_epub` builds for one
chapter: the `<h1>` heading, then a `<p>` element for each paragraph
that passes `para not in chapter_name and para.strip()`.  The source
also computes `start_idx`/`content_text`, which it never uses; they are
reproduced here as dead lets (`start_idx` is nonnegative because
`find` returns `0` for an empty name and at least `-1 + len(name)`
otherwise). -/
def chapterHtml (chapterText chapterName : List Char) : List Char :=
  let paragraphs := detect_paragraphs (splitlines chapterText)
  let htmlInit := lc "<h1>" ++ chapterName ++ lc "</h1>"
  let _startIdx : Int := pyFind chapterText chapterName + (chapterName.length : Int)
  let _contentText := pyStrip (chapterText.drop _startIdx.toNat)
  paragraphs.foldl
    (fun acc para =>
      if !pyInStr para chapterName && !(pyStrip para).isEmpty then
        acc ++ lc "<p>" ++ para ++ lc "</p>"
      else acc)
    htmlInit

/-! ### Specification-side definitions

These definitions render the specification's *words* (not the source
code) for the refinement-style claims; each is compared against the
corresponding source-derived definition by a theorem below. -/

/-- Spec wording, chapter-numeral token: "Arabic 1–3 digits, a Roman
numeral, or a generated spelled-out cardinal", on the case-folded line. -/
def specNumeralTok (n : List Char) : Prop :=
  (n ≠ [] ∧ n.length ≤ 3 ∧ ∀ c ∈ n, Char.isDigit c = true) ∨
  (n ≠ [] ∧ ∀ c ∈ n, isRomanLowerCh c = true) ∨
  n ∈ textualNumbersLower

/-- Spec wording, what may follow the numeral: nothing, or "a separator
and trailing title text" (a nonempty run of separator characters, then
nonempty text). -/
def specTrail (r : List Char) : Prop :=
  r = [] ∨ ∃ a b, r = a ++ b ∧ a ≠ [] ∧ (∀ c ∈ a, isSepCh c = true) ∧ b ≠ []

/-- Spec wording for the chapter pattern: the whole line is the word
"Chapter" (any case) followed by whitespace and a numeral token with an
optional separator-and-title tail, or a bare Arabic or Roman numeral
standing alone.  Case-insensitivity is rendered by case-folding the
line. -/
def chapterSpecLine (s : List Char) : Prop :=
  (∃ w n r, s.map asciiLower = lc "chapter" ++ w ++ n ++ r ∧
     w ≠ [] ∧ (∀ c ∈ w, pyIsSpace c = true) ∧
     specNumeralTok n ∧ specTrail r) ∨
  (s.map asciiLower ≠ [] ∧ ∀ c ∈ s.map asciiLower, isRomanLowerCh c = true) ∨
  (s.map asciiLower ≠ [] ∧ (s.map asciiLower).length ≤ 3 ∧
     ∀ c ∈ s.map asciiLower, Char.isDigit c = true)

/-- Spec wording for the paragraph segmenter, carried paragraph text:
break before a non-blank line that starts with an uppercase letter while
the accumulated paragraph text ends with a period; otherwise space-join
the line onto the open paragraph. -/
def paraSpecGo : List (List Char) → List Char → List (List Char)
  | [], current => if current.isEmpty then [] else [current]
  | l :: rest, current =>
    if current.isEmpty then paraSpecGo rest l
    else if headIsUpper l && current.getLast? = some '.' then
      current :: paraSpecGo rest l
    else paraSpecGo rest (current ++ ' ' :: l)

/-- Spec wording for `_detect_paragraphs`: consider only the non-blank
stripped lines, accumulate paragraph text directly. -/
def paragraphsSpec (lines : List (List Char)) : List (List Char) :=
  paraSpecGo ((lines.map pyStrip).filter (fun l => !l.isEmpty)) []

/-! ## Helper lemmas -/

theorem dropWhile_eq_self_of_all {p : Char → Bool} {l : List Char}
    (h : ∀ c ∈ l, p c = false) : l.dropWhile p = l := by
  cases l with
  | nil => rfl
  | cons a t => rw [List.dropWhile_cons]; simp [h a (List.mem_cons_self a t)]

theorem pyStrip_eq_self {s : List Char} (h : ∀ c ∈ s, pyIsSpace c = false) :
    pyStrip s = s := by
  unfold pyStrip
  rw [dropWhile_eq_self_of_all h,
    dropWhile_eq_self_of_all (fun c hc => h c (List.mem_reverse.mp hc)),
    List.reverse_reverse]

theorem roman_not_space {c : Char} (h : isRomanUpperCh (asciiUpper c) = true) :
    pyIsSpace c = false := by
  by_contra hc
  rw [Bool.not_eq_false] at hc
  simp only [pyIsSpace, Bool.or_eq_true, decide_eq_true_eq] at hc
  rcases hc with ((((((((((h1 | h1) | h1) | h1) | h1) | h1) | h1) | h1) | h1) | h1) | h1) | h1 <;>
    subst h1 <;> exact absurd h (by decide)

/-! ## Claim theorems -/

/-- C6: for every token made entirely of Roman-numeral characters in any
case, `_convert_line_if_roman` returns the right-to-left subtractive
decoding of its upper-cased form (`roman_to_int`, which subtracts a
symbol exactly when a more significant later symbol strictly exceeds it
and performs no canonical-form validation); every other
whitespace-trimmed token is returned unchanged rather than raising; and
concretely `IV ↦ 4`, `iv ↦ 4`, and non-canonical `IIII ↦ 4`. -/
theorem C6_numeral_normalizer :
    (∀ s : List Char, s ≠ [] → (∀ c ∈ s, isRomanUpperCh (asciiUpper c) = true) →
        convert_line_if_roman s = Sum.inl (roman_to_int (s.map asciiUpper))) ∧
    (∀ s : List Char, pyStrip s = s →
        ¬(s ≠ [] ∧ ∀ c ∈ s, isRomanUpperCh (asciiUpper c) = true) →
        convert_line_if_roman s = Sum.inr s) ∧
    convert_line_if_roman (lc "IV") = Sum.inl 4 ∧
    convert_line_if_roman (lc "iv") = Sum.inl 4 ∧
    convert_line_if_roman (lc "IIII") = Sum.inl 4 := by
  refine ⟨?_, ?_, by decide, by decide, by decide⟩
  · intro s hne hall
    have hstrip : pyStrip s = s :=
      pyStrip_eq_self (fun c hc => roman_not_space (hall c hc))
    unfold convert_line_if_roman
    rw [hstrip]
    have hmap : (s.map asciiUpper).all isRomanUpperCh = true := by
      rw [List.all_eq_true]
      intro x hx
      rw [List.mem_map] at hx
      obtain ⟨c, hc, rfl⟩ := hx
      exact hall c hc
    have hne2 : (s.map asciiUpper).isEmpty = false := by
      cases s with
      | nil => exact absurd rfl hne
      | cons a t => rfl
    simp [hne2, hmap]
  · intro s hstrip hnot
    unfold convert_line_if_roman
    rw [hstrip]
    by_cases hcond : (!(s.map asciiUpper).isEmpty && (s.map asciiUpper).all isRomanUpperCh) = true
    · exfalso
      apply hnot
      rw [Bool.and_eq_true] at hcond
      constructor
      · intro hs
        subst hs
        simp at hcond
      · intro c hc
        have hall := hcond.2
        rw [List.all_eq_true] at hall
        exact hall (asciiUpper c) (List.mem_map_of_mem asciiUpper hc)
    · rw [Bool.not_eq_true] at hcond
      exact if_neg (by rw [hcond]; simp)

/-- C6 witness: the universal clauses of `C6_numeral_normalizer`
instantiated at the all-Roman token `XII` and the non-Roman trimmed
token `Hello`. -/
theorem C6_numeral_normalizer_witness :
    convert_line_if_roman (lc "XII") = Sum.inl 12 ∧
    convert_line_if_roman (lc "Hello") = Sum.inr (lc "Hello") := by
  constructor
  · have h := C6_numeral_normalizer.1 (lc "XII") (by decide) (by decide)
    rw [h]; decide
  · exact C6_numeral_normalizer.2.1 (lc "Hello") (by decide) (by decide)

/-- C1: the claim (and the spec) say that input with no heading-like
line yields exactly one synthetic chapter `("Chapter 1", whole text)`
and empty front matter, and the source carries exactly that fallback
branch (`return [(pdf_text, "Chapter 1")], []` under the comment "No
chapters found, treat entire document as single chapter") — but
`start_indices.append(len(lines))` runs *before* the `if start_indices:`
test, so the list is never empty and the fallback is unreachable.  On
the heading-free input `"hello world."` the code instead returns *zero*
chapters and the entire text as front matter. -/
theorem C1_no_chapter_fallback_unreachable :
    detect_chapters (lc "hello world.") = ([], [lc "hello world."]) := by decide

/-- C3: sequence-validation scenario.  Scanning the heading lines
`Chapter 1` … `Chapter 5` in document order (each followed by a prose
line, as in a normal book), all five are accepted — their line indices
and titles are all registered — and `chapter_number` ends at 6.
Scanning `Chapter 1` immediately followed by the running-header repeat
`Chapter 1`, the second occurrence is rejected and does not increment
the counter: being the first line of a consecutive-heading run it also
retracts the previously accepted start (the documented rollback), so
the scan ends with no registered starts and `chapter_number` back at
1 (in particular not incremented to 3). -/
theorem C3_sequence_validation :
    (detectScan (splitlines (lc "Chapter 1\nIt was dark.\nChapter 2\nIt was late.\nChapter 3\nIt was cold.\nChapter 4\nIt was wet.\nChapter 5\nIt was over."))).chapterNumber = 6 ∧
    (detectScan (splitlines (lc "Chapter 1\nIt was dark.\nChapter 2\nIt was late.\nChapter 3\nIt was cold.\nChapter 4\nIt was wet.\nChapter 5\nIt was over."))).startIndices = [0, 2, 4, 6, 8] ∧
    (detectScan (splitlines (lc "Chapter 1\nIt was dark.\nChapter 2\nIt was late.\nChapter 3\nIt was cold.\nChapter 4\nIt was wet.\nChapter 5\nIt was over."))).chapterNames =
      [lc "Chapter 1", lc "Chapter 2", lc "Chapter 3", lc "Chapter 4", lc "Chapter 5"] ∧
    (detectScan (splitlines (lc "Chapter 1\nChapter 1"))).startIndices = [] ∧
    (detectScan (splitlines (lc "Chapter 1\nChapter 1"))).chapterNumber = 1 := by
  decide

theorem isEmpty_false_of_ne_nil {α : Type} {l : List α} (h : l ≠ []) : l.isEmpty = false := by
  cases l with
  | nil => exact absurd rfl h
  | cons a t => rfl

theorem endsWithSet_append {st l : List Char} (hl : l ≠ []) :
    endsWithSet (st ++ l) = endsWithSet l := by
  unfold endsWithSet
  rw [List.getLast?_append]
  cases hgl : l.getLast? with
  | none => exact absurd (List.getLast?_eq_none_iff.mp hgl) hl
  | some c => rfl

theorem joinNL_cons {l : List Char} {L : List (List Char)} (h : L ≠ []) :
    joinNL (l :: L) = l ++ '\n' :: joinNL L := by
  cases L with
  | nil => exact absurd rfl h
  | cons x xs => rfl

theorem mergeGo_reflowed (L : List (List Char)) :
    ∀ st : List Char, st ≠ [] → endsWithSet st = true →
    (∀ l ∈ L, l ≠ [] ∧ pyStrip l = l ∧ isChapterLike (strip_tags l) = false) →
    (∀ l ∈ L.dropLast, endsWithSet l = true) →
    L ≠ [] → mergeGo L st false = st ++ '\n' :: joinNL L := by
  induction L with
  | nil => intro st _ _ _ _ hne; exact absurd rfl hne
  | cons l L' ih =>
    intro st hst hset hall hdrop _
    obtain ⟨hlne, hlstrip, hlch⟩ := hall l (List.mem_cons_self _ _)
    have h1 : (pyStrip l).isEmpty = false := by
      rw [hlstrip]; exact isEmpty_false_of_ne_nil hlne
    have h3 : (!st.isEmpty && !endsWithSet st) = false := by
      rw [hset]; simp
    have h4 : st.isEmpty = false := isEmpty_false_of_ne_nil hst
    have step : mergeGo (l :: L') st false = mergeGo L' (st ++ '\n' :: l) false := by
      simp [mergeGo, hlstrip, h1, hlch, h3, h4]
      simp [hlne, hset]
    rw [step]
    cases hL' : L' with
    | nil => simp [mergeGo, joinNL]
    | cons x xs =>
      have hL'ne : L' ≠ [] := by rw [hL']; simp
      rw [← hL']
      have hdropc : (l :: L').dropLast = l :: L'.dropLast := by
        rw [hL']; rfl
      have hres := ih (st ++ '\n' :: l) (by simp)
        (by
          rw [show st ++ '\n' :: l = (st ++ ['\n']) ++ l by simp,
            endsWithSet_append hlne]
          exact hdrop l (by rw [hdropc]; exact List.mem_cons_self _ _))
        (fun y hy => hall y (List.mem_cons_of_mem _ hy))
        (fun y hy => hdrop y (by rw [hdropc]; exact List.mem_cons_of_mem _ hy))
        hL'ne
      rw [hres, joinNL_cons hL'ne]
      simp

theorem splitlinesAux_no_break (l : List Char) (hl : ∀ c ∈ l, isLineBreak c = false) :
    ∀ rest acc, splitlinesAux (l ++ rest) false acc =
      splitlinesAux rest false (l.reverse ++ acc) := by
  induction l with
  | nil => intro rest acc; simp
  | cons c l' ih =>
    intro rest acc
    have hc : isLineBreak c = false := hl c (List.mem_cons_self _ _)
    have hcr : ¬(c = '\r') := by
      intro h
      subst h
      simp [isLineBreak] at hc
    have step : splitlinesAux ((c :: l') ++ rest) false acc =
        splitlinesAux (l' ++ rest) false (c :: acc) := by
      simp [splitlinesAux, hcr, hc]
    rw [step, ih (fun x hx => hl x (List.mem_cons_of_mem _ hx))]
    simp

theorem splitlines_joinNL (L : List (List Char))
    (h : ∀ l ∈ L, l ≠ [] ∧ ∀ c ∈ l, isLineBreak c = false) :
    splitlines (joinNL L) = L := by
  induction L with
  | nil => rfl
  | cons l L' ih =>
    obtain ⟨hlne, hlnb⟩ := h l (List.mem_cons_self _ _)
    cases hL' : L' with
    | nil =>
      show splitlinesAux (joinNL [l]) false [] = [l]
      have : joinNL [l] = l ++ [] := by simp [joinNL]
      rw [this, splitlinesAux_no_break l hlnb [] []]
      simp [splitlinesAux, hlne]
    | cons x xs =>
      have hL'ne : L' ≠ [] := by rw [hL']; simp
      rw [← hL']
      show splitlinesAux (joinNL (l :: L')) false [] = l :: L'
      rw [joinNL_cons hL'ne, splitlinesAux_no_break l hlnb ('\n' :: joinNL L') []]
      have : splitlinesAux ('\n' :: joinNL L') false (l.reverse ++ []) =
          (l.reverse ++ []).reverse :: splitlinesAux (joinNL L') false [] := by
        simp [splitlinesAux, isLineBreak]
      rw [this]
      have ihr : splitlinesAux (joinNL L') false [] = L' :=
        ih (fun y hy => h y (List.mem_cons_of_mem _ hy))
      rw [ihr]
      simp

/-- C5 counterexample: `_merge_split_lines` is not idempotent on its own
output.  Merging the lines `chapter` and `twelve` (neither of which is
heading-classified, and the first of which ends without terminal
punctuation) joins them into the single logical line `chapter twelve` —
which *is* matched by the chapter pattern, so re-running the merger on
that output adds heading spacing around it instead of returning it
unchanged. -/
theorem C5_idempotence_counterexample :
    merge_split_lines (splitlines (merge_split_lines [lc "chapter", lc "twelve"])) ≠
      merge_split_lines [lc "chapter", lc "twelve"] := by decide

/-- C5 amended: the merger is a no-op exactly on reflowed text none of
whose logical lines is itself heading-classified: if every line is
nonempty, already whitespace-stripped, free of line-break characters and
not matched (after markup stripping) by the chapter or front-matter
pattern, and every non-final line ends in one of the merger's terminal
characters (no broken sentences), then the merger returns the text
(the newline-join of the lines) unchanged, and splitting that text
recovers exactly the same lines. -/
theorem C5_merge_idempotent_on_headingless_reflowed (L : List (List Char))
    (hall : ∀ l ∈ L, l ≠ [] ∧ pyStrip l = l ∧ isChapterLike (strip_tags l) = false ∧
      ∀ c ∈ l, isLineBreak c = false)
    (hdrop : ∀ l ∈ L.dropLast, endsWithSet l = true) :
    merge_split_lines L = joinNL L ∧ splitlines (joinNL L) = L := by
  constructor
  · cases hL : L with
    | nil => rfl
    | cons l L' =>
      obtain ⟨hlne, hlstrip, hlch, _⟩ := hall l (by rw [hL]; exact List.mem_cons_self _ _)
      have h1 : (pyStrip l).isEmpty = false := by
        rw [hlstrip]; exact isEmpty_false_of_ne_nil hlne
      cases hL' : L' with
      | nil =>
        show mergeGo [l] [] false = joinNL [l]
        simp [mergeGo, hlstrip, h1, hlch, hlne, joinNL]
      | cons x xs =>
        have hL'ne : L' ≠ [] := by rw [hL']; simp
        rw [← hL']
        have step : merge_split_lines (l :: L') = mergeGo L' l false := by
          simp [merge_split_lines, mergeGo, hlstrip, h1, hlch, hlne]
        have hdropc : (l :: L').dropLast = l :: L'.dropLast := by
          rw [hL']; rfl
        rw [step, mergeGo_reflowed L' l hlne
          (hdrop l (by rw [hL, hdropc]; exact List.mem_cons_self _ _))
          (fun y hy => ⟨(hall y (by rw [hL]; exact List.mem_cons_of_mem _ hy)).1,
            (hall y (by rw [hL]; exact List.mem_cons_of_mem _ hy)).2.1,
            (hall y (by rw [hL]; exact List.mem_cons_of_mem _ hy)).2.2.1⟩)
          (fun y hy => hdrop y (by rw [hL, hdropc]; exact List.mem_cons_of_mem _ hy))
          hL'ne, joinNL_cons hL'ne]
  · exact splitlines_joinNL L (fun l hl => ⟨(hall l hl).1, (hall l hl).2.2.2⟩)

/-- C5 witness: the amended idempotence applied to the two-line reflowed
text `Hello.` / `World.`. -/
theorem C5_merge_idempotent_witness :
    merge_split_lines [lc "Hello.", lc "World."] = joinNL [lc "Hello.", lc "World."] ∧
    splitlines (joinNL [lc "Hello.", lc "World."]) = [lc "Hello.", lc "World."] :=
  C5_merge_idempotent_on_headingless_reflowed [lc "Hello.", lc "World."]
    (by decide) (by decide)

theorem detectStep_startIndices (lines : List (List Char)) (st : DetectState) (i : Nat)
    (line : List Char) :
    (detectStep lines st i line).startIndices = st.startIndices ∨
    (detectStep lines st i line).startIndices = st.startIndices.dropLast ∨
    (detectStep lines st i line).startIndices = st.startIndices ++ [i] := by
  unfold detectStep
  repeat' split_ifs <;> simp

theorem detectLoop_invariant (lines : List (List Char)) :
    ∀ (ls : List (List Char)) (i : Nat) (st : DetectState),
      List.Chain' (· < ·) st.startIndices → (∀ x ∈ st.startIndices, x < i) →
      List.Chain' (· < ·) (detectLoop lines ls i st).startIndices ∧
      ∀ x ∈ (detectLoop lines ls i st).startIndices, x < i + ls.length := by
  intro ls
  induction ls with
  | nil =>
    intro i st h1 h2
    exact ⟨h1, fun x hx => by simpa using h2 x hx⟩
  | cons l rest ih =>
    intro i st h1 h2
    have hstep : List.Chain' (· < ·) (detectStep lines st i l).startIndices ∧
        ∀ x ∈ (detectStep lines st i l).startIndices, x < i + 1 := by
      rcases detectStep_startIndices lines st i l with h | h | h <;> rw [h]
      · exact ⟨h1, fun x hx => Nat.lt_succ_of_lt (h2 x hx)⟩
      · exact ⟨h1.sublist (List.dropLast_sublist _),
          fun x hx => Nat.lt_succ_of_lt (h2 x (List.dropLast_subset _ hx))⟩
      · refine ⟨List.chain'_append.mpr ⟨h1, List.chain'_singleton i, ?_⟩, ?_⟩
        · intro x hx y hy
          simp only [List.head?_cons, Option.mem_def, Option.some.injEq] at hy
          subst hy
          exact h2 x (List.mem_of_getLast?_eq_some hx)
        · intro x hx
          rcases List.mem_append.mp hx with hx | hx
          · exact Nat.lt_succ_of_lt (h2 x hx)
          · simp only [List.mem_singleton] at hx
            omega
    have := ih (i + 1) (detectStep lines st i l) hstep.1 hstep.2
    refine ⟨this.1, fun x hx => ?_⟩
    have := this.2 x hx
    simp only [List.length_cons]
    omega

theorem detectScan_invariant (lines : List (List Char)) :
    List.Chain' (· < ·) (detectScan lines).startIndices ∧
    ∀ x ∈ (detectScan lines).startIndices, x < lines.length := by
  have := detectLoop_invariant lines lines 0 ⟨false, 1, 0, [], []⟩
    (by simp) (by simp)
  exact ⟨this.1, fun x hx => by simpa using this.2 x hx⟩

theorem take_append_pySlice {a b : Nat} (h : a ≤ b) (L : List (List Char)) :
    L.take a ++ pySlice L a b = L.take b := by
  unfold pySlice
  calc L.take a ++ (L.take b).drop a
      = (L.take b).take a ++ (L.take b).drop a := by
        rw [List.take_take, Nat.min_eq_left h]
    _ = L.take b := List.take_append_drop a (L.take b)

theorem take_spans_join (L : List (List Char)) :
    ∀ (si : List Nat) (a : Nat), List.Chain' (· ≤ ·) (a :: si) →
      si.getLastD a = L.length →
      L.take a ++ (chapterSpans L (a :: si)).flatten = L := by
  intro si
  induction si with
  | nil =>
    intro a _ hlast
    simp only [List.getLastD_nil] at hlast
    subst hlast
    simp [chapterSpans, List.take_length]
  | cons b si' ih =>
    intro a hchain hlast
    have hab : a ≤ b := (List.chain'_cons.mp hchain).1
    have hchain' : List.Chain' (· ≤ ·) (b :: si') := (List.chain'_cons.mp hchain).2
    have hlast' : si'.getLastD b = L.length := by
      rw [List.getLastD_cons] at hlast
      exact hlast
    show L.take a ++ (pySlice L a b :: chapterSpans L (b :: si')).flatten = L
    rw [List.flatten_cons, ← List.append_assoc, take_append_pySlice hab]
    exact ih b hchain' hlast'

/-- C2: the front-matter span returned by `_detect_chapters`, followed by
the chapter line spans `lines[start_indices[i] : start_indices[i+1]]`
taken over the consecutive boundary pairs (the spans from which the
returned chapters are built, in order), is a partition of the reflowed
input's lines: concatenated in order they reconstruct `splitlines` of
the input exactly, with no line lost or duplicated.  (The registered
boundaries are strictly increasing and bounded by the line count, so the
spans are contiguous and non-overlapping.)  The second conjunct records
that the returned chapters are exactly these spans, joined, stripped and
paired with the recorded names. -/
theorem C2_spans_partition (text : List Char) :
    (detect_chapters text).2 ++
      (chapterSpans (splitlines text)
        ((detectScan (splitlines text)).startIndices ++ [(splitlines text).length])).flatten
      = splitlines text ∧
    (detect_chapters text).1 =
      (chapterSpans (splitlines text)
        ((detectScan (splitlines text)).startIndices ++ [(splitlines text).length])).zipWith
        (fun span name => (pyStrip (joinNL span), name))
        (detectScan (splitlines text)).chapterNames := by
  have hinv := detectScan_invariant (splitlines text)
  have hne : ((detectScan (splitlines text)).startIndices ++
      [(splitlines text).length]).isEmpty = false := by
    rw [List.isEmpty_eq_false]
    simp
  constructor
  · have hfront : (detect_chapters text).2 =
        (splitlines text).take
          (((detectScan (splitlines text)).startIndices ++
            [(splitlines text).length]).headD 0) := by
      unfold detect_chapters
      rw [if_neg (by rw [hne]; simp)]
    rw [hfront]
    cases hsi : (detectScan (splitlines text)).startIndices with
    | nil =>
      simp [chapterSpans, List.take_length]
    | cons a si' =>
      have hchain : List.Chain' (· < ·) (a :: si') := hsi ▸ hinv.1
      have hbound : ∀ x ∈ a :: si', x < (splitlines text).length := by
        intro x hx
        exact hinv.2 x (hsi ▸ hx)
      show (splitlines text).take ((a :: (si' ++ [(splitlines text).length])).headD 0) ++
        (chapterSpans (splitlines text) (a :: (si' ++ [(splitlines text).length]))).flatten
        = splitlines text
      apply take_spans_join
      · rw [List.chain'_cons'] at hchain ⊢
        constructor
        · intro y hy
          rcases si' with _ | ⟨b, si''⟩
          · simp at hy
            subst hy
            exact Nat.le_of_lt (hbound a (List.mem_cons_self _ _))
          · simp at hy
            subst hy
            exact Nat.le_of_lt (hchain.1 b rfl)
        · apply List.Chain'.append (hchain.2.imp fun a b h => Nat.le_of_lt h)
            (List.chain'_singleton _)
          intro x hx y hy
          simp only [List.head?_cons, Option.mem_def, Option.some.injEq] at hy
          subst hy
          exact Nat.le_of_lt (hbound x (List.mem_cons_of_mem _ (List.mem_of_getLast?_eq_some hx)))
      · rw [List.getLastD_concat]
  · unfold detect_chapters
    rw [if_neg (by rw [hne]; simp)]

theorem mergeGo_cons_step (x : List Char) (rest : List (List Char)) (st : List Char)
    (prev : Bool) :
    ∃ st2 p2, mergeGo (x :: rest) st prev = mergeGo rest st2 p2 := by
  by_cases h1 : (pyStrip x).isEmpty = true
  · exact ⟨st, prev, by simp [mergeGo, h1]⟩
  · rw [Bool.not_eq_true] at h1
    have h1' : pyStrip x ≠ [] := by
      intro h; rw [h] at h1; simp at h1
    by_cases h2 : isChapterLike (strip_tags (pyStrip x)) = true
    · refine ⟨(if st.isEmpty then st else st ++ ['\n']) ++ '\n' :: (pyStrip x ++ ['\n']),
        true, ?_⟩
      simp [mergeGo, h1, h1', h2]
    · rw [Bool.not_eq_true] at h2
      by_cases h3 : (!st.isEmpty && !endsWithSet st) = true
      · refine ⟨st ++ ' ' :: pyStrip x, false, ?_⟩
        rw [Bool.and_eq_true, Bool.not_eq_true', Bool.not_eq_true'] at h3
        have hstne : st ≠ [] := by
          intro h; rw [h] at h3; simp at h3
        simp [mergeGo, h1, h1', h2, h3.1, h3.2, hstne]
      · rw [Bool.not_eq_true] at h3
        refine ⟨(if ((pyWords (strip_tags (pyStrip x))).length = 1 && prev) = true then
            ((if st.isEmpty then st else st ++ ['\n']) ++ pyStrip x) ++ ['\n']
          else (if st.isEmpty then st else st ++ ['\n']) ++ pyStrip x), false, ?_⟩
        simp only [mergeGo, h1', h2, Bool.false_eq_true, if_false]
        rw [if_neg (by simp [h1]), if_neg (by rw [h3]; simp)]

theorem endsWithSet_of_last_nl {st : List Char} (h : st.getLast? = some '\n') :
    endsWithSet st = true := by
  unfold endsWithSet
  rw [h]
  simp

theorem mergeGo_extends (ls : List (List Char)) :
    ∀ (st : List Char) (prev : Bool), ∃ d, mergeGo ls st prev = st ++ d ∧
      (st.getLast? = some '\n' → d = [] ∨ d.head? = some '\n') := by
  induction ls with
  | nil =>
    intro st prev
    exact ⟨[], by simp [mergeGo], fun _ => Or.inl rfl⟩
  | cons x rest ih =>
    intro st prev
    by_cases h1 : (pyStrip x).isEmpty = true
    · obtain ⟨d, hd, hp⟩ := ih st prev
      refine ⟨d, ?_, hp⟩
      rw [show mergeGo (x :: rest) st prev = mergeGo rest st prev by simp [mergeGo, h1]]
      exact hd
    · rw [Bool.not_eq_true] at h1
      have h1' : pyStrip x ≠ [] := by
        intro h; rw [h] at h1; simp at h1
      by_cases h2 : isChapterLike (strip_tags (pyStrip x)) = true
      · by_cases hst : st = []
        · subst hst
          obtain ⟨d, hd, hp⟩ := ih ('\n' :: (pyStrip x ++ ['\n'])) true
          refine ⟨'\n' :: (pyStrip x ++ ['\n']) ++ d, ?_, fun hlast => by simp at hlast⟩
          rw [show mergeGo (x :: rest) [] prev =
              mergeGo rest ('\n' :: (pyStrip x ++ ['\n'])) true by
            simp [mergeGo, h1, h1', h2]]
          rw [hd]
          simp
        · obtain ⟨d, hd, hp⟩ := ih (st ++ '\n' :: '\n' :: (pyStrip x ++ ['\n'])) true
          refine ⟨'\n' :: '\n' :: (pyStrip x ++ ['\n']) ++ d, ?_, fun _ => Or.inr rfl⟩
          rw [show mergeGo (x :: rest) st prev =
              mergeGo rest (st ++ '\n' :: '\n' :: (pyStrip x ++ ['\n'])) true by
            simp [mergeGo, h1, h1', h2, hst]]
          rw [hd]
          simp
      · rw [Bool.not_eq_true] at h2
        by_cases h3 : (!st.isEmpty && !endsWithSet st) = true
        · rw [Bool.and_eq_true, Bool.not_eq_true', Bool.not_eq_true'] at h3
          have hstne : st ≠ [] := by
            intro h; rw [h] at h3; simp at h3
          obtain ⟨d, hd, hp⟩ := ih (st ++ ' ' :: pyStrip x) false
          refine ⟨' ' :: pyStrip x ++ d, ?_, ?_⟩
          · rw [show mergeGo (x :: rest) st prev =
                mergeGo rest (st ++ ' ' :: pyStrip x) false by
              simp [mergeGo, h1, h1', h2, h3.1, h3.2, hstne]]
            rw [hd]
            simp
          · intro hlast
            rw [endsWithSet_of_last_nl hlast] at h3
            exact absurd h3.2 (by simp)
        · rw [Bool.not_eq_true] at h3
          by_cases hst : st = []
          · subst hst
            by_cases hC : ((pyWords (strip_tags (pyStrip x))).length = 1 && prev) = true
            · obtain ⟨d, hd, hp⟩ := ih (pyStrip x ++ ['\n']) false
              refine ⟨pyStrip x ++ ['\n'] ++ d, ?_, fun hlast => by simp at hlast⟩
              rw [show mergeGo (x :: rest) [] prev =
                  mergeGo rest (pyStrip x ++ ['\n']) false by
                simp [mergeGo, h1, h1', h2, hC]]
              rw [hd]
              simp
            · rw [Bool.not_eq_true] at hC
              obtain ⟨d, hd, hp⟩ := ih (pyStrip x) false
              refine ⟨pyStrip x ++ d, ?_, fun hlast => by simp at hlast⟩
              rw [show mergeGo (x :: rest) [] prev = mergeGo rest (pyStrip x) false by
                simp [mergeGo, h1, h1', h2, hC]]
              rw [hd]
              simp
          · by_cases hC : ((pyWords (strip_tags (pyStrip x))).length = 1 && prev) = true
            · obtain ⟨d, hd, hp⟩ := ih (st ++ '\n' :: (pyStrip x ++ ['\n'])) false
              refine ⟨'\n' :: (pyStrip x ++ ['\n']) ++ d, ?_, fun _ => Or.inr rfl⟩
              rw [show mergeGo (x :: rest) st prev =
                  mergeGo rest (st ++ '\n' :: (pyStrip x ++ ['\n'])) false by
                simp [mergeGo, h1, h1', h2, h3, hC, hst]]
              rw [hd]
              simp
            · rw [Bool.not_eq_true] at hC
              obtain ⟨d, hd, hp⟩ := ih (st ++ '\n' :: pyStrip x) false
              refine ⟨'\n' :: pyStrip x ++ d, ?_, fun _ => Or.inr rfl⟩
              rw [show mergeGo (x :: rest) st prev =
                  mergeGo rest (st ++ '\n' :: pyStrip x) false by
                simp [mergeGo, h1, h1', h2, h3, hC, hst]]
              rw [hd]
              simp

theorem heading_strip_nonempty {l : List Char}
    (h : isChapterLike (strip_tags (pyStrip l)) = true) : (pyStrip l).isEmpty = false := by
  by_contra hc
  rw [Bool.not_eq_false, List.isEmpty_eq_true] at hc
  rw [hc] at h
  exact absurd h (by decide)

theorem mergeGo_heading_line (ls : List (List Char)) :
    ∀ (st : List Char) (prev : Bool) (l : List Char), l ∈ ls →
      isChapterLike (strip_tags (pyStrip l)) = true →
      ∃ A B, mergeGo ls st prev = A ++ '\n' :: (pyStrip l ++ '\n' :: B) ∧
        (A = [] ∨ A.getLast? = some '\n') ∧ (B = [] ∨ B.head? = some '\n') := by
  induction ls with
  | nil => intro st prev l hl; exact absurd hl (List.not_mem_nil l)
  | cons x rest ih =>
    intro st prev l hl hch
    rcases List.mem_cons.mp hl with rfl | hl'
    · have h1 : (pyStrip l).isEmpty = false := heading_strip_nonempty hch
      have h1' : pyStrip l ≠ [] := by
        intro h; rw [h] at h1; simp at h1
      by_cases hst : st = []
      · subst hst
        obtain ⟨d, hd, hp⟩ := mergeGo_extends rest ('\n' :: (pyStrip l ++ ['\n'])) true
        refine ⟨[], d, ?_, Or.inl rfl, ?_⟩
        · rw [show mergeGo (l :: rest) [] prev =
              mergeGo rest ('\n' :: (pyStrip l ++ ['\n'])) true by
            simp [mergeGo, h1, h1', hch]]
          rw [hd]
          simp
        · apply hp
          rw [show ('\n' :: (pyStrip l ++ ['\n'])) = ('\n' :: pyStrip l) ++ ['\n'] by simp]
          exact List.getLast?_concat _
      · obtain ⟨d, hd, hp⟩ := mergeGo_extends rest (st ++ '\n' :: '\n' :: (pyStrip l ++ ['\n'])) true
        refine ⟨st ++ ['\n'], d, ?_, Or.inr (List.getLast?_concat _), ?_⟩
        · rw [show mergeGo (l :: rest) st prev =
              mergeGo rest (st ++ '\n' :: '\n' :: (pyStrip l ++ ['\n'])) true by
            simp [mergeGo, h1, h1', hch, hst]]
          rw [hd]
          simp
        · apply hp
          rw [show st ++ '\n' :: '\n' :: (pyStrip l ++ ['\n']) =
              (st ++ '\n' :: '\n' :: pyStrip l) ++ ['\n'] by simp]
          exact List.getLast?_concat _
    · obtain ⟨st2, p2, hstep⟩ := mergeGo_cons_step x rest st prev
      rw [hstep]
      exact ih st2 p2 l hl' hch

/-- C4: every input line whose markup-stripped, whitespace-stripped text
matches the chapter pattern or the front-matter pattern appears in the
output of `_merge_split_lines` as its own logical line: the merged text
contains the stripped line delimited by line breaks on both sides, the
text before it is empty or ends in a line break (so together with the
emitted break the heading is preceded by paragraph-break spacing), and
the text after the trailing break is empty or starts with a further line
break (every later append begins with one).  In particular the heading
is never concatenated with neighboring prose. -/
theorem C4_heading_isolated (ls : List (List Char)) (l : List Char) (hl : l ∈ ls)
    (hch : isChapterLike (strip_tags (pyStrip l)) = true) :
    ∃ A B, merge_split_lines ls = A ++ '\n' :: (pyStrip l ++ '\n' :: B) ∧
      (A = [] ∨ A.getLast? = some '\n') ∧ (B = [] ∨ B.head? = some '\n') :=
  mergeGo_heading_line ls [] false l hl hch

/-- C4 witness: the heading `CHAPTER TWO` inside a three-line document is
isolated by the merger. -/
theorem C4_heading_isolated_witness :
    ∃ A B, merge_split_lines [lc "some prose,", lc "CHAPTER TWO", lc "more prose."] =
      A ++ '\n' :: (lc "CHAPTER TWO" ++ '\n' :: B) ∧
      (A = [] ∨ A.getLast? = some '\n') ∧ (B = [] ∨ B.head? = some '\n') := by
  have h := C4_heading_isolated [lc "some prose,", lc "CHAPTER TWO", lc "more prose."]
    (lc "CHAPTER TWO") (by decide) (by decide)
  obtain ⟨A, B, h1, h2, h3⟩ := h
  exact ⟨A, B, by rw [h1]; rfl, h2, h3⟩

theorem joinSpace_ne_nil : ∀ (cur : List (List Char)), cur ≠ [] →
    (∀ p ∈ cur, p ≠ []) → joinSpace cur ≠ [] := by
  intro cur hne hel
  cases cur with
  | nil => exact absurd rfl hne
  | cons a t =>
    cases t with
    | nil => exact hel a (List.mem_cons_self _ _)
    | cons b t' =>
      show a ++ ' ' :: joinSpace (b :: t') ≠ []
      simp

theorem joinSpace_concat : ∀ (cur : List (List Char)) (x : List Char), cur ≠ [] →
    joinSpace (cur ++ [x]) = joinSpace cur ++ ' ' :: x := by
  intro cur
  induction cur with
  | nil => intro x h; exact absurd rfl h
  | cons a t ih =>
    intro x _
    cases t with
    | nil => rfl
    | cons b t' =>
      show a ++ ' ' :: joinSpace ((b :: t') ++ [x]) = (a ++ ' ' :: joinSpace (b :: t')) ++ ' ' :: x
      rw [ih x (by simp)]
      simp

theorem getLastD_default_irrel : ∀ (l : List (List Char)) (x : List Char) (d d' : List Char),
    (x :: l).getLastD d = (x :: l).getLastD d' := by
  intro l x d d'
  rw [List.getLastD_cons, List.getLastD_cons]

theorem getLastD_mem : ∀ (l : List (List Char)) (x d : List Char),
    (x :: l).getLastD d ∈ x :: l := by
  intro l
  induction l with
  | nil => intro x d; rw [List.getLastD_cons]; simp
  | cons y l' ih =>
    intro x d
    rw [List.getLastD_cons]
    exact List.mem_cons_of_mem _ (ih y x)

theorem joinSpace_getLast? : ∀ (t : List (List Char)) (a : List Char), a ≠ [] →
    (∀ p ∈ t, p ≠ []) →
    (joinSpace (a :: t)).getLast? = ((a :: t).getLastD []).getLast? := by
  intro t
  induction t with
  | nil => intro a _ _; rfl
  | cons b t' ih =>
    intro a _ hel
    have hbne : b ≠ [] := hel b (List.mem_cons_self _ _)
    have hjne : joinSpace (b :: t') ≠ [] := joinSpace_ne_nil (b :: t') (by simp) hel
    show (a ++ ' ' :: joinSpace (b :: t')).getLast? = ((a :: b :: t').getLastD []).getLast?
    rw [List.getLast?_append]
    have h1 : (' ' :: joinSpace (b :: t')).getLast? = (joinSpace (b :: t')).getLast? := by
      cases hj : joinSpace (b :: t') with
      | nil => exact absurd hj hjne
      | cons j0 J0 => exact List.getLast?_cons_cons
    rw [h1, ih b hbne (fun p hp => hel p (List.mem_cons_of_mem _ hp))]
    have hlastne : (b :: t').getLastD [] ≠ [] := hel _ (getLastD_mem t' b [])
    obtain ⟨c, hc⟩ : ∃ c, ((b :: t').getLastD []).getLast? = some c := by
      cases h : ((b :: t').getLastD []).getLast? with
      | none => exact absurd (List.getLast?_eq_none_iff.mp h) hlastne
      | some c => exact ⟨c, rfl⟩
    rw [show ((a :: b :: t').getLastD []) = ((b :: t').getLastD a) from List.getLastD_cons _ _ _,
      getLastD_default_irrel t' b a [], hc]
    rfl

theorem lastLineEndsPeriod_eq (cur : List (List Char)) (hne : cur ≠ [])
    (hel : ∀ p ∈ cur, p ≠ []) :
    lastLineEndsPeriod cur = decide ((joinSpace cur).getLast? = some '.') := by
  cases cur with
  | nil => exact absurd rfl hne
  | cons a t =>
    have ha : a ≠ [] := hel a (List.mem_cons_self _ _)
    rw [joinSpace_getLast? t a ha (fun p hp => hel p (List.mem_cons_of_mem _ hp))]
    unfold lastLineEndsPeriod
    obtain ⟨x, hx⟩ : ∃ x, (a :: t).getLast? = some x := by
      cases h : (a :: t).getLast? with
      | none => simp at h
      | some x => exact ⟨x, rfl⟩
    rw [hx, show (a :: t).getLastD [] = x by rw [List.getLastD_eq_getLast?, hx]; rfl]

theorem paraLoop_spec (ls : List (List Char)) :
    ∀ (i : Nat) (paras cur : List (List Char)),
      (∀ p ∈ cur, p ≠ []) → (cur = [] ∨ i ≠ 0) →
      (paraLoop ls i paras cur).1 ++
        (if (paraLoop ls i paras cur).2.isEmpty then []
         else [joinSpace (paraLoop ls i paras cur).2]) =
      paras ++ paraSpecGo ((ls.map pyStrip).filter (fun l => !l.isEmpty)) (joinSpace cur) := by
  induction ls with
  | nil =>
    intro i paras cur hel _
    show paras ++ (if cur.isEmpty then [] else [joinSpace cur]) =
      paras ++ paraSpecGo [] (joinSpace cur)
    congr 1
    cases hcur : cur with
    | nil => rfl
    | cons a t =>
      have hj : joinSpace (a :: t) ≠ [] :=
        joinSpace_ne_nil _ (by simp) (hcur ▸ hel)
      simp [paraSpecGo, isEmpty_false_of_ne_nil hj]
  | cons line rest ih =>
    intro i paras cur hel hi
    by_cases hstr : (pyStrip line).isEmpty = true
    · have hstep : paraLoop (line :: rest) i paras cur = paraLoop rest (i+1) paras cur := by
        simp [paraLoop, hstr]
      have hfil : ((line :: rest).map pyStrip).filter (fun l => !l.isEmpty) =
          (rest.map pyStrip).filter (fun l => !l.isEmpty) := by
        simp [hstr]
      rw [hstep, hfil]
      exact ih (i+1) paras cur hel (Or.inr (by omega))
    · rw [Bool.not_eq_true] at hstr
      have hlne : pyStrip line ≠ [] := by
        intro h; rw [h] at hstr; simp at hstr
      have hfil : ((line :: rest).map pyStrip).filter (fun l => !l.isEmpty) =
          pyStrip line :: (rest.map pyStrip).filter (fun l => !l.isEmpty) := by
        simp [hstr]
      by_cases hcur : cur = []
      · subst hcur
        have hstep : paraLoop (line :: rest) i paras [] =
            paraLoop rest (i+1) paras [pyStrip line] := by
          simp [paraLoop, hstr]
        rw [hstep, hfil,
          ih (i+1) paras [pyStrip line]
            (by intro p hp; simp at hp; subst hp; exact hlne) (Or.inr (by omega))]
        simp [paraSpecGo, joinSpace]
      · have hcne : cur.isEmpty = false := isEmpty_false_of_ne_nil hcur
        have hine : i ≠ 0 := by
          rcases hi with h | h
          · exact absurd h hcur
          · exact h
        have hjne : (joinSpace cur).isEmpty = false :=
          isEmpty_false_of_ne_nil (joinSpace_ne_nil cur hcur hel)
        by_cases hnew : (headIsUpper (pyStrip line) && lastLineEndsPeriod cur) = true
        · have hstep : paraLoop (line :: rest) i paras cur =
              paraLoop rest (i+1) (paras ++ [joinSpace cur]) [pyStrip line] := by
            simp [paraLoop, hstr, hcne, hine, hnew]
          rw [hstep, hfil,
            ih (i+1) (paras ++ [joinSpace cur]) [pyStrip line]
              (by intro p hp; simp at hp; subst hp; exact hlne) (Or.inr (by omega))]
          have hcondJ : (headIsUpper (pyStrip line) &&
              decide ((joinSpace cur).getLast? = some '.')) = true := by
            rw [← lastLineEndsPeriod_eq cur hcur hel]
            exact hnew
          have hspec : paraSpecGo
              (pyStrip line :: (rest.map pyStrip).filter (fun l => !l.isEmpty))
              (joinSpace cur) =
              joinSpace cur ::
                paraSpecGo ((rest.map pyStrip).filter (fun l => !l.isEmpty)) (pyStrip line) := by
            simp [paraSpecGo, hjne, hcondJ]
          rw [hspec]
          simp [joinSpace]
        · rw [Bool.not_eq_true] at hnew
          have hstep : paraLoop (line :: rest) i paras cur =
              paraLoop rest (i+1) paras (cur ++ [pyStrip line]) := by
            simp [paraLoop, hstr, hcne, hine, hnew]
          rw [hstep, hfil,
            ih (i+1) paras (cur ++ [pyStrip line])
              (by
                intro p hp
                rcases List.mem_append.mp hp with hp | hp
                · exact hel p hp
                · simp at hp; subst hp; exact hlne)
              (Or.inr (by omega))]
          have hcondJ : (headIsUpper (pyStrip line) &&
              decide ((joinSpace cur).getLast? = some '.')) = false := by
            rw [← lastLineEndsPeriod_eq cur hcur hel]
            exact hnew
          have hspec : paraSpecGo
              (pyStrip line :: (rest.map pyStrip).filter (fun l => !l.isEmpty))
              (joinSpace cur) =
              paraSpecGo ((rest.map pyStrip).filter (fun l => !l.isEmpty))
                (joinSpace cur ++ ' ' :: pyStrip line) := by
            simp [paraSpecGo, hjne, hcondJ]
          rw [hspec, joinSpace_concat cur (pyStrip line) hcur]

theorem paraSpecGo_ne_nil : ∀ (fl : List (List Char)) (cur : List Char),
    (∀ l ∈ fl, l ≠ []) → ∀ p ∈ paraSpecGo fl cur, p ≠ [] := by
  intro fl
  induction fl with
  | nil =>
    intro cur _ p hp
    by_cases h : cur.isEmpty = true
    · simp [paraSpecGo, h] at hp
    · rw [Bool.not_eq_true] at h
      simp [paraSpecGo, h] at hp
      subst hp
      intro hc
      rw [hc] at h
      simp at h
  | cons l fr ih =>
    intro cur hel p hp
    have hlne : l ≠ [] := hel l (List.mem_cons_self _ _)
    have hel' : ∀ y ∈ fr, y ≠ [] := fun y hy => hel y (List.mem_cons_of_mem _ hy)
    by_cases h1 : cur.isEmpty = true
    · simp only [paraSpecGo, h1, if_true] at hp
      exact ih l hel' p hp
    · rw [Bool.not_eq_true] at h1
      have hcne : cur ≠ [] := by
        intro hc; rw [hc] at h1; simp at h1
      by_cases h2 : (headIsUpper l && decide (cur.getLast? = some '.')) = true
      · simp only [paraSpecGo, h1, h2, Bool.false_eq_true, if_false, if_true] at hp
        rcases List.mem_cons.mp hp with rfl | hp
        · exact hcne
        · exact ih l hel' p hp
      · simp only [paraSpecGo, h1, h2, Bool.false_eq_true, if_false] at hp
        exact ih (cur ++ ' ' :: l) hel' p hp

theorem detect_paragraphs_eq_spec (lines : List (List Char)) :
    detect_paragraphs lines = paragraphsSpec lines := by
  have h := paraLoop_spec lines 0 [] [] (by simp) (Or.inl rfl)
  unfold detect_paragraphs paragraphsSpec
  rw [show joinSpace [] = [] from rfl] at h
  by_cases hE : (paraLoop lines 0 [] []).2.isEmpty = true
  · simp only [hE, if_true, List.append_nil, List.nil_append] at h
    simp only [hE, Bool.not_true, Bool.false_eq_true, if_false]
    exact h
  · rw [Bool.not_eq_true] at hE
    simp only [hE, Bool.false_eq_true, if_false, List.nil_append] at h
    simp only [hE, Bool.not_false, if_true]
    exact h

/-- C9: `_detect_paragraphs` behaves exactly as the specification
describes — it coincides, on every list of body lines, with the
spec-level segmenter that walks only the non-blank stripped lines,
starts a paragraph at the first of them, breaks before a line that
begins with an uppercase letter while the accumulated paragraph text
ends with a period, and space-joins every other line — and no produced
paragraph is empty. -/
theorem C9_paragraph_segmenter :
    (∀ lines : List (List Char), detect_paragraphs lines = paragraphsSpec lines) ∧
    ∀ (lines : List (List Char)) (p : List Char), p ∈ detect_paragraphs lines → p ≠ [] := by
  refine ⟨detect_paragraphs_eq_spec, fun lines p hp => ?_⟩
  rw [detect_paragraphs_eq_spec] at hp
  refine paraSpecGo_ne_nil _ [] ?_ p hp
  intro l hl
  have := List.of_mem_filter hl
  intro hc
  rw [hc] at this
  simp at this

/-- C9 witness: the segmenter applied to a concrete two-paragraph body,
with the membership hypothesis discharged at the paragraph
`A cat sat.`. -/
theorem C9_paragraph_segmenter_witness :
    lc "A cat sat." ≠ [] :=
  C9_paragraph_segmenter.2 [lc "A cat", lc "sat.", lc "Then it left."]
    (lc "A cat sat.") (by decide)

theorem isPrefixOf_self : ∀ (l : List Char), l.isPrefixOf l = true := by
  intro l
  induction l with
  | nil => rfl
  | cons c t ih => simp [List.isPrefixOf_cons₂, ih]

theorem pyInStr_self (n : List Char) : pyInStr n n = true := by
  unfold pyInStr
  rw [List.any_eq_true]
  exact ⟨0, List.mem_range.mpr (by omega), by simp [isPrefixOf_self n]⟩

theorem chapterHtml_foldl (paras : List (List Char)) (n : List Char) :
    ∀ acc : List Char,
      paras.foldl (fun acc para =>
        if !pyInStr para n && !(pyStrip para).isEmpty then
          acc ++ lc "<p>" ++ para ++ lc "</p>"
        else acc) acc =
      acc ++ ((paras.filter (fun para => !pyInStr para n && !(pyStrip para).isEmpty)).map
        (fun p => lc "<p>" ++ p ++ lc "</p>")).flatten := by
  induction paras with
  | nil => intro acc; simp
  | cons p ps ih =>
    intro acc
    by_cases hc : (!pyInStr p n && !(pyStrip p).isEmpty) = true
    · simp only [List.foldl_cons, hc, if_true, List.filter_cons, List.map_cons,
        List.flatten_cons]
      rw [ih]
      simp
    · rw [Bool.not_eq_true] at hc
      simp only [List.foldl_cons, hc, Bool.false_eq_true, if_false, List.filter_cons]
      rw [ih]

/-- C8 counterexample: the claim says the rendered content unit contains
the chapter's paragraphs excluding only exact duplicates of the title
and empty paragraphs.  For the chapter with title `Chapter 1 Winter.`
and body `Winter.` / `It snowed.`, the paragraph `Winter.` is nonempty
and differs from the title, so the claim predicts it is rendered — but
the source's test is `para not in chapter_name` (substring), so the
rendered content omits it. -/
theorem C8_exact_exclusion_counterexample :
    detect_paragraphs (splitlines (lc "Winter.\nIt snowed.")) =
      [lc "Winter.", lc "It snowed."] ∧
    lc "Winter." ≠ lc "Chapter 1 Winter." ∧
    (pyStrip (lc "Winter.")).isEmpty = false ∧
    chapterHtml (lc "Winter.\nIt snowed.") (lc "Chapter 1 Winter.") =
      lc "<h1>Chapter 1 Winter.</h1><p>It snowed.</p>" := by decide

/-- C8 amended: the content unit built by `_add_chapters_to_epub` is the
`<h1>` heading with the chapter title followed by exactly the chapter's
paragraphs that are not substrings of the title (the source's
`para not in chapter_name` test) and not blank; consequently a paragraph
whose text exactly equals the rendered chapter title is never rendered
as a body paragraph, so the title never appears twice. -/
theorem C8_render_content (t n : List Char) :
    chapterHtml t n = lc "<h1>" ++ n ++ lc "</h1>" ++
      ((renderedParas t n).map (fun p => lc "<p>" ++ p ++ lc "</p>")).flatten ∧
    ∀ p ∈ renderedParas t n, p ≠ n := by
  constructor
  · have h0 : chapterHtml t n =
        (detect_paragraphs (splitlines t)).foldl (fun acc para =>
          if !pyInStr para n && !(pyStrip para).isEmpty then
            acc ++ lc "<p>" ++ para ++ lc "</p>"
          else acc) (lc "<h1>" ++ n ++ lc "</h1>") := rfl
    rw [h0, chapterHtml_foldl]
    unfold renderedParas
    simp [List.append_assoc]
  · intro p hp
    have hmem := List.of_mem_filter hp
    rw [Bool.and_eq_true] at hmem
    intro hpn
    subst hpn
    rw [pyInStr_self] at hmem
    simp at hmem

/-- C8 witness: the amended characterization instantiated at the
concrete chapter used in the counterexample, with the membership clause
applied to the surviving paragraph. -/
theorem C8_render_content_witness :
    lc "It snowed." ≠ lc "Chapter 1 Winter." :=
  (C8_render_content (lc "Winter.\nIt snowed.") (lc "Chapter 1 Winter.")).2
    (lc "It snowed.") (by decide)

/-- C10: when rendering a chapter the source omits every paragraph whose
text occurs as a substring of the chapter title (`para not in
chapter_name`), not only exact matches: no substring-of-title paragraph
is ever among the rendered paragraphs, and concretely the one-sentence
paragraph `Storm.`, which occurs inside the title `Chapter 2 Storm.`,
is silently dropped from the rendered content unit. -/
theorem C10_substring_exclusion :
    (∀ t n p : List Char, pyInStr p n = true → p ∉ renderedParas t n) ∧
    detect_paragraphs (splitlines (lc "Storm.\nRain fell hard.")) =
      [lc "Storm.", lc "Rain fell hard."] ∧
    pyInStr (lc "Storm.") (lc "Chapter 2 Storm.") = true ∧
    lc "Storm." ≠ lc "Chapter 2 Storm." ∧
    chapterHtml (lc "Storm.\nRain fell hard.") (lc "Chapter 2 Storm.") =
      lc "<h1>Chapter 2 Storm.</h1><p>Rain fell hard.</p>" := by
  refine ⟨?_, by decide, by decide, by decide, by decide⟩
  intro t n p hsub hp
  have hmem := List.of_mem_filter hp
  rw [Bool.and_eq_true, hsub] at hmem
  simp at hmem

/-- C10 witness: the universal clause applied to a paragraph equal to
the title (hence a substring of it). -/
theorem C10_substring_exclusion_witness :
    lc "Hi." ∉ renderedParas (lc "Hi.") (lc "Hi.") :=
  C10_substring_exclusion.1 (lc "Hi.") (lc "Hi.") (lc "Hi.") (by decide)

theorem char_toNat_ofNat {n : Nat} (h : n.isValidChar) : (Char.ofNat n).toNat = n := by
  unfold Char.ofNat
  rw [dif_pos h]
  rfl

theorem asciiLower_eq_nl {c : Char} (h : asciiLower c = '\n') : c = '\n' := by
  unfold asciiLower at h
  split at h
  · rename_i hc
    exfalso
    have hval : (c.toNat + 32).isValidChar := Or.inl (by omega)
    have htn := char_toNat_ofNat hval
    rw [h] at htn
    have h2 : (10 : Nat) = c.toNat + 32 := htn
    omega
  · exact h

theorem mem_map_asciiLower_nl {s : List Char} (h : '\n' ∉ s) :
    '\n' ∉ s.map asciiLower := by
  intro hc
  rw [List.mem_map] at hc
  obtain ⟨c, hcs, hcl⟩ := hc
  rw [asciiLower_eq_nl hcl] at hcs
  exact h hcs

theorem space_char_not {c : Char} (h : pyIsSpace c = true) :
    Char.isDigit c = false ∧ isWordCh c = false ∧ isRomanLowerCh c = false := by
  simp only [pyIsSpace, Bool.or_eq_true, decide_eq_true_eq] at h
  rcases h with ((((((((((h1 | h1) | h1) | h1) | h1) | h1) | h1) | h1) | h1) | h1) | h1) | h1 <;>
    subst h1 <;> exact ⟨by decide, by decide, by decide⟩

theorem sep_char_not {c : Char} (h : isSepCh c = true) :
    Char.isDigit c = false ∧ isWordCh c = false ∧ isRomanLowerCh c = false := by
  simp only [isSepCh, Bool.or_eq_true, decide_eq_true_eq] at h
  rcases h with (h1 | h1) | h1
  · subst h1; exact ⟨by decide, by decide, by decide⟩
  · subst h1; exact ⟨by decide, by decide, by decide⟩
  · exact space_char_not h1

theorem roman_lower_not_space {c : Char} (h : isRomanLowerCh c = true) :
    pyIsSpace c = false := by
  simp only [isRomanLowerCh, Bool.or_eq_true, decide_eq_true_eq] at h
  rcases h with (((((h1 | h1) | h1) | h1) | h1) | h1) | h1 <;> subst h1 <;> decide

theorem digit_not_space {c : Char} (h : Char.isDigit c = true) :
    pyIsSpace c = false := by
  by_contra hc
  rw [Bool.not_eq_false] at hc
  rw [(space_char_not hc).1] at h
  exact absurd h (by simp)

theorem textual_head_facts :
    textualNumbersLower.all
      (fun m => !m.isEmpty && !pyIsSpace (m.headD 'a')) = true := by decide

theorem specNumeralTok_head {n : List Char} (h : specNumeralTok n) :
    n ≠ [] ∧ ∀ c, n.head? = some c → pyIsSpace c = false := by
  rcases h with ⟨hne, _, hd⟩ | ⟨hne, hd⟩ | hmem
  · refine ⟨hne, fun c hc => ?_⟩
    exact digit_not_space (hd c (List.mem_of_mem_head? hc))
  · refine ⟨hne, fun c hc => ?_⟩
    exact roman_lower_not_space (hd c (List.mem_of_mem_head? hc))
  · have := List.all_eq_true.mp textual_head_facts n hmem
    rw [Bool.and_eq_true] at this
    have hne : n ≠ [] := by
      intro hc
      rw [hc] at this
      simp at this
    refine ⟨hne, fun c hc => ?_⟩
    cases n with
    | nil => exact absurd rfl hne
    | cons x t =>
      simp only [List.head?_cons, Option.some.injEq] at hc
      subst hc
      have h2 := this.2
      simp only [List.headD_cons] at h2
      rw [Bool.not_eq_true'] at h2
      exact h2

theorem dropWhile_head_not (p : Char → Bool) (l : List Char) :
    ∀ c, (l.dropWhile p).head? = some c → p c = false := by
  intro c hc
  have := List.head?_dropWhile_not p l
  rw [hc] at this
  exact this

theorem takeWhile_dropWhile_split {p : Char → Bool} {w r : List Char}
    (hw : ∀ c ∈ w, p c = true) (hr : ∀ c, r.head? = some c → p c = false) :
    (w ++ r).takeWhile p = w ∧ (w ++ r).dropWhile p = r := by
  induction w with
  | nil =>
    simp only [List.nil_append]
    cases r with
    | nil => exact ⟨rfl, rfl⟩
    | cons c r' =>
      have := hr c rfl
      rw [List.takeWhile_cons, List.dropWhile_cons]
      simp [this]
  | cons a w' ih =>
    have ha : p a = true := hw a (List.mem_cons_self _ _)
    have := ih (fun c hc => hw c (List.mem_cons_of_mem _ hc))
    rw [List.cons_append, List.takeWhile_cons, List.dropWhile_cons]
    simp [ha, this.1, this.2]

theorem dollarEnd_iff {r : List Char} (hnl : '\n' ∉ r) : dollarEnd r = true ↔ r = [] := by
  unfold dollarEnd
  constructor
  · intro h
    rw [Bool.or_eq_true] at h
    rcases h with h | h
    · exact List.isEmpty_eq_true.mp h
    · rw [decide_eq_true_eq] at h
      rw [h] at hnl
      exact absurd (List.mem_cons_self _ _) hnl
  · intro h
    subst h
    rfl

theorem dotPlusEnd_iff {r : List Char} (hnl : '\n' ∉ r) : dotPlusEnd r = true ↔ r ≠ [] := by
  unfold dotPlusEnd
  have hlast : r.getLast? ≠ some '\n' := by
    intro h
    exact hnl (List.mem_of_getLast?_eq_some h)
  rw [if_neg (by simpa using hlast)]
  have hall : r.all (fun c => c ≠ '\n') = true := by
    rw [List.all_eq_true]
    intro c hc
    simp only [decide_eq_true_eq]
    intro h
    rw [h] at hc
    exact hnl hc
  rw [hall]
  constructor
  · intro h
    rw [Bool.and_eq_true] at h
    intro hc
    rw [hc] at h
    simp at h
  · intro h
    simp [isEmpty_false_of_ne_nil h]

theorem sepTextMatch_iff {r : List Char} (hnl : '\n' ∉ r) :
    sepTextMatch r = true ↔
      ∃ a b, r = a ++ b ∧ a ≠ [] ∧ (∀ c ∈ a, isSepCh c = true) ∧ b ≠ [] := by
  induction r with
  | nil =>
    simp only [sepTextMatch, Bool.false_eq_true, false_iff]
    rintro ⟨a, b, heq, hane, _, _⟩
    exact hane (List.append_eq_nil.mp heq.symm).1
  | cons c r' ih =>
    have hnl' : '\n' ∉ r' := fun h => hnl (List.mem_cons_of_mem _ h)
    show (isSepCh c && (dotPlusEnd r' || sepTextMatch r')) = true ↔ _
    constructor
    · intro h
      rw [Bool.and_eq_true, Bool.or_eq_true] at h
      rcases h.2 with h2 | h2
      · exact ⟨[c], r', rfl, by simp, by
          intro x hx
          rw [List.mem_singleton] at hx
          subst hx
          exact h.1, (dotPlusEnd_iff hnl').mp h2⟩
      · obtain ⟨a', b', heq, hane, hasep, hbne⟩ := (ih hnl').mp h2
        exact ⟨c :: a', b', by rw [List.cons_append, heq], by simp, by
          intro x hx
          rcases List.mem_cons.mp hx with rfl | hx
          · exact h.1
          · exact hasep x hx, hbne⟩
    · rintro ⟨a, b, heq, hane, hasep, hbne⟩
      cases a with
      | nil => exact absurd rfl hane
      | cons a0 a' =>
        rw [List.cons_append] at heq
        injection heq with h0 h1
        subst h0
        rw [Bool.and_eq_true, Bool.or_eq_true]
        refine ⟨hasep c (List.mem_cons_self _ _), ?_⟩
        cases a' with
        | nil =>
          left
          rw [List.nil_append] at h1
          subst h1
          exact (dotPlusEnd_iff hnl').mpr hbne
        | cons a1 a'' =>
          right
          refine (ih hnl').mpr ⟨a1 :: a'', b, h1, by simp, ?_, hbne⟩
          intro x hx
          exact hasep x (List.mem_cons_of_mem _ hx)

theorem restOk_iff {r : List Char} (hnl : '\n' ∉ r) : restOk r = true ↔ specTrail r := by
  unfold restOk specTrail
  rw [Bool.or_eq_true, dollarEnd_iff hnl, sepTextMatch_iff hnl]

theorem specTrail_head_sep {r : List Char} (h : specTrail r) :
    ∀ c, r.head? = some c → isSepCh c = true := by
  intro c hc
  rcases h with rfl | ⟨a, b, rfl, hane, hasep, _⟩
  · simp at hc
  · cases a with
    | nil => exact absurd rfl hane
    | cons a0 a' =>
      rw [List.cons_append, List.head?_cons, Option.some.injEq] at hc
      subst hc
      exact hasep a0 (List.mem_cons_self _ _)

theorem numeralAlt_iff {r2 : List Char} (hnl : '\n' ∉ r2) :
    (digitsNumeral r2 || romanNumeral r2 || textualNumeral r2) = true ↔
      ∃ n r, r2 = n ++ r ∧ specNumeralTok n ∧ specTrail r := by
  constructor
  · intro h
    simp only [Bool.or_eq_true] at h
    rcases h with (h | h) | h
    · unfold digitsNumeral at h
      rw [Bool.and_eq_true, Bool.and_eq_true, Bool.and_eq_true] at h
      obtain ⟨⟨⟨hne, hlen⟩, _⟩, hrest⟩ := h
      have hnl2 : '\n' ∉ r2.dropWhile Char.isDigit :=
        fun hc => hnl ((List.dropWhile_sublist _).subset hc)
      refine ⟨r2.takeWhile Char.isDigit, r2.dropWhile Char.isDigit,
        (List.takeWhile_append_dropWhile Char.isDigit r2).symm, ?_, (restOk_iff hnl2).mp hrest⟩
      refine Or.inl ⟨?_, by simpa using hlen, fun c hc => List.mem_takeWhile_imp hc⟩
      intro hc
      rw [hc] at hne
      simp at hne
    · unfold romanNumeral at h
      rw [Bool.and_eq_true] at h
      obtain ⟨hne, hrest⟩ := h
      have hnl2 : '\n' ∉ r2.dropWhile isRomanLowerCh :=
        fun hc => hnl ((List.dropWhile_sublist _).subset hc)
      refine ⟨r2.takeWhile isRomanLowerCh, r2.dropWhile isRomanLowerCh,
        (List.takeWhile_append_dropWhile isRomanLowerCh r2).symm, ?_, (restOk_iff hnl2).mp hrest⟩
      refine Or.inr (Or.inl ⟨?_, fun c hc => List.mem_takeWhile_imp hc⟩)
      intro hc
      rw [hc] at hne
      simp at hne
    · unfold textualNumeral at h
      rw [List.any_eq_true] at h
      obtain ⟨m, hmem, hp⟩ := h
      rw [Bool.and_eq_true] at hp
      obtain ⟨hu, hm⟩ := ( List.isPrefixOf_iff_prefix.mp hp.1 : m <+: r2)
      have hdrop : r2.drop m.length = hu := by
        rw [← hm]
        exact List.drop_left m hu
      have hnl2 : '\n' ∉ r2.drop m.length :=
        fun hc => hnl (List.mem_of_mem_drop hc)
      refine ⟨m, r2.drop m.length, by rw [hdrop, ← hm], Or.inr (Or.inr hmem),
        (restOk_iff hnl2).mp hp.2⟩
  · rintro ⟨n, r, rfl, hnum, htrail⟩
    have hnlr : '\n' ∉ r := fun hc => hnl (List.mem_append_right _ hc)
    simp only [Bool.or_eq_true]
    rcases hnum with ⟨hne, hlen, hdig⟩ | ⟨hne, hrom⟩ | hmem
    · refine Or.inl (Or.inl ?_)
      unfold digitsNumeral
      have hsplit := takeWhile_dropWhile_split (p := Char.isDigit) hdig
        (fun c hc => (sep_char_not (specTrail_head_sep htrail c hc)).1)
      rw [Bool.and_eq_true, Bool.and_eq_true, Bool.and_eq_true]
      refine ⟨⟨⟨?_, ?_⟩, ?_⟩, ?_⟩
      · rw [hsplit.1]
        simp [isEmpty_false_of_ne_nil hne]
      · rw [hsplit.1]
        simpa using hlen
      · rw [hsplit.2]
        unfold wordBoundary
        cases hh : r.head? with
        | none => rfl
        | some c =>
          simp only
          rw [(sep_char_not (specTrail_head_sep htrail c hh)).2.1]
          rfl
      · rw [hsplit.2]
        exact (restOk_iff hnlr).mpr htrail
    · refine Or.inl (Or.inr ?_)
      unfold romanNumeral
      have hsplit := takeWhile_dropWhile_split (p := isRomanLowerCh) hrom
        (fun c hc => (sep_char_not (specTrail_head_sep htrail c hc)).2.2)
      rw [Bool.and_eq_true]
      constructor
      · rw [hsplit.1]
        simp [isEmpty_false_of_ne_nil hne]
      · rw [hsplit.2]
        exact (restOk_iff hnlr).mpr htrail
    · refine Or.inr ?_
      unfold textualNumeral
      rw [List.any_eq_true]
      refine ⟨n, hmem, ?_⟩
      rw [Bool.and_eq_true]
      constructor
      · exact List.isPrefixOf_iff_prefix.mpr ⟨r, rfl⟩
      · rw [List.drop_left]
        exact (restOk_iff hnlr).mpr htrail

theorem chapterWordAlt_iff {t : List Char} (hnl : '\n' ∉ t) :
    chapterWordAlt t = true ↔
      ∃ w n r, t = lc "chapter" ++ w ++ n ++ r ∧ w ≠ [] ∧
        (∀ c ∈ w, pyIsSpace c = true) ∧ specNumeralTok n ∧ specTrail r := by
  unfold chapterWordAlt
  constructor
  · intro h
    split at h
    case isFalse => simp at h
    case isTrue hpre =>
      rw [Bool.and_eq_true] at h
      obtain ⟨u, hu⟩ : lc "chapter" <+: t := List.isPrefixOf_iff_prefix.mp hpre
      have hdrop : t.drop 7 = u := by
        rw [← hu, show (7 : Nat) = (lc "chapter").length from rfl]
        exact List.drop_left _ _
      rw [hdrop] at h
      have hnlu : '\n' ∉ u := by
        intro hc
        exact hnl (hu ▸ List.mem_append_right _ hc)
      have hnl2 : '\n' ∉ u.dropWhile pyIsSpace :=
        fun hc => hnlu ((List.dropWhile_sublist _).subset hc)
      obtain ⟨n, r, heq2, hnum, htrail⟩ := (numeralAlt_iff hnl2).mp h.2
      refine ⟨u.takeWhile pyIsSpace, n, r, ?_, ?_,
        fun c hc => List.mem_takeWhile_imp hc, hnum, htrail⟩
      · calc t = lc "chapter" ++ u := hu.symm
          _ = lc "chapter" ++ (u.takeWhile pyIsSpace ++ u.dropWhile pyIsSpace) := by
              rw [List.takeWhile_append_dropWhile]
          _ = lc "chapter" ++ u.takeWhile pyIsSpace ++ n ++ r := by
              rw [heq2]
              simp [List.append_assoc]
      · intro hc
        rw [hc] at h
        simp at h
  · rintro ⟨w, n, r, rfl, hwne, hwsp, hnum, htrail⟩
    have hpre : (lc "chapter").isPrefixOf (lc "chapter" ++ w ++ n ++ r) = true := by
      apply List.isPrefixOf_iff_prefix.mpr
      exact ⟨w ++ n ++ r, by simp⟩
    rw [if_pos hpre]
    have hdrop : (lc "chapter" ++ w ++ n ++ r).drop 7 = w ++ (n ++ r) := by
      rw [show (7 : Nat) = (lc "chapter").length from rfl]
      rw [List.append_assoc, List.append_assoc]
      exact List.drop_left _ _
    rw [hdrop]
    have hheadn := specNumeralTok_head hnum
    have hr : ∀ c, (n ++ r).head? = some c → pyIsSpace c = false := by
      intro c hc
      cases hn : n with
      | nil => exact absurd hn hheadn.1
      | cons n0 n' =>
        rw [hn, List.cons_append, List.head?_cons, Option.some.injEq] at hc
        subst hc
        exact hheadn.2 n0 (by rw [hn]; rfl)
    have hsplit := takeWhile_dropWhile_split (p := pyIsSpace) hwsp hr
    rw [Bool.and_eq_true]
    constructor
    · rw [hsplit.1]
      simp [isEmpty_false_of_ne_nil hwne]
    · rw [hsplit.2]
      have hnlnr : '\n' ∉ n ++ r := by
        intro hc
        apply hnl
        rw [List.mem_append] at hc
        rcases hc with hc | hc
        · exact List.mem_append_left _ (List.mem_append_right _ hc)
        · exact List.mem_append_right _ hc
      exact (numeralAlt_iff hnlnr).mpr ⟨n, r, rfl, hnum, htrail⟩

theorem bareRomanAlt_iff {t : List Char} (hnl : '\n' ∉ t) :
    bareRomanAlt t = true ↔ t ≠ [] ∧ ∀ c ∈ t, isRomanLowerCh c = true := by
  unfold bareRomanAlt
  rw [Bool.and_eq_true]
  constructor
  · rintro ⟨hne, hde⟩
    have hnl2 : '\n' ∉ t.dropWhile isRomanLowerCh :=
      fun hc => hnl ((List.dropWhile_sublist _).subset hc)
    have hdw : t.dropWhile isRomanLowerCh = [] := (dollarEnd_iff hnl2).mp hde
    refine ⟨?_, List.dropWhile_eq_nil_iff.mp hdw⟩
    intro hc
    subst hc
    simp at hne
  · rintro ⟨hne, hall⟩
    have hdw : t.dropWhile isRomanLowerCh = [] := List.dropWhile_eq_nil_iff.mpr hall
    have htw : t.takeWhile isRomanLowerCh = t := by
      have h0 := List.takeWhile_append_dropWhile isRomanLowerCh t
      rw [hdw, List.append_nil] at h0
      exact h0
    constructor
    · rw [htw]
      simp [isEmpty_false_of_ne_nil hne]
    · rw [hdw]
      rfl

theorem bareDigitsAlt_iff {t : List Char} (hnl : '\n' ∉ t) :
    bareDigitsAlt t = true ↔
      t ≠ [] ∧ t.length ≤ 3 ∧ ∀ c ∈ t, Char.isDigit c = true := by
  unfold bareDigitsAlt
  rw [Bool.and_eq_true, Bool.and_eq_true, Bool.and_eq_true]
  constructor
  · rintro ⟨⟨⟨hne, hlen⟩, _⟩, hde⟩
    have hnl2 : '\n' ∉ t.dropWhile Char.isDigit :=
      fun hc => hnl ((List.dropWhile_sublist _).subset hc)
    have hdw : t.dropWhile Char.isDigit = [] := (dollarEnd_iff hnl2).mp hde
    have htw : t.takeWhile Char.isDigit = t := by
      have h0 := List.takeWhile_append_dropWhile Char.isDigit t
      rw [hdw, List.append_nil] at h0
      exact h0
    rw [htw] at hlen
    refine ⟨?_, by simpa using hlen, List.dropWhile_eq_nil_iff.mp hdw⟩
    intro hc
    subst hc
    simp at hne
  · rintro ⟨hne, hlen, hall⟩
    have hdw : t.dropWhile Char.isDigit = [] := List.dropWhile_eq_nil_iff.mpr hall
    have htw : t.takeWhile Char.isDigit = t := by
      have h0 := List.takeWhile_append_dropWhile Char.isDigit t
      rw [hdw, List.append_nil] at h0
      exact h0
    refine ⟨⟨⟨?_, ?_⟩, ?_⟩, ?_⟩
    · rw [htw]
      simp [isEmpty_false_of_ne_nil hne]
    · rw [htw]
      simpa using hlen
    · rw [hdw]
      rfl
    · rw [hdw]
      rfl

/-- C7: the chapter pattern of `_build_chapter_pattern`, applied to a
whole line containing no line break, matches exactly when the
case-folded line is the word `chapter` followed by whitespace and a
numeral token — one to three Arabic digits, a nonempty Roman-numeral
letter run, or one of the generated spelled-out cardinals for 1–1000 —
optionally followed by a nonempty separator run and nonempty trailing
title text, or when the line is a bare Roman numeral or bare 1–3-digit
Arabic numeral standing alone; matching is case-insensitive and
anchored to the full line.  In particular `Chapter TWENTY-ONE` matches
(the hyphenated cardinal is accepted) and `Chapter ABC` does not. -/
theorem C7_chapter_pattern :
    (∀ s : List Char, '\n' ∉ s → (chapterMatch s = true ↔ chapterSpecLine s)) ∧
    chapterMatch (lc "Chapter TWENTY-ONE") = true ∧
    chapterMatch (lc "Chapter ABC") = false := by
  refine ⟨?_, by decide, by decide⟩
  intro s hnl
  have hnlt : '\n' ∉ s.map asciiLower := mem_map_asciiLower_nl hnl
  unfold chapterMatch chapterSpecLine
  simp only [Bool.or_eq_true]
  constructor
  · rintro ((h | h) | h)
    · exact Or.inl ((chapterWordAlt_iff hnlt).mp h)
    · exact Or.inr (Or.inl ((bareRomanAlt_iff hnlt).mp h))
    · exact Or.inr (Or.inr ((bareDigitsAlt_iff hnlt).mp h))
  · rintro (h | h | h)
    · exact Or.inl (Or.inl ((chapterWordAlt_iff hnlt).mpr h))
    · exact Or.inl (Or.inr ((bareRomanAlt_iff hnlt).mpr h))
    · exact Or.inr ((bareDigitsAlt_iff hnlt).mpr h)

/-- C7 witness: the characterization applied to the line
`Chapter 12 The Journey` (digit numeral with separator and title text),
discharging the no-line-break hypothesis. -/
theorem C7_chapter_pattern_witness :
    chapterMatch (lc "Chapter 12 The Journey") = true ↔
      chapterSpecLine (lc "Chapter 12 The Journey") :=
  C7_chapter_pattern.1 (lc "Chapter 12 The Journey") (by decide)
